import Mathlib

/-!
Verification of the file-traversal and rename-orchestration engine of
`pdfrenamer` (src/pdfrenamer/main.py) against its specification.

The model is a shallow embedding:
* Python strings are Lean `String`s (manipulated through their `List Char`
  data, with the path separator fixed to `'/'`);
* the filesystem is a pair of lists of full paths (`files`, `dirs`) whose
  list order models directory-listing order;
* the external collaborators (`pdf2bib.pdf2bib_singlefile`, `build_filename`,
  `check_format_is_valid`) and injected `os.rename` failures live in an
  `Env` record of oracles;
* Python exceptions are an `Except PyErr` result; the artificial
  `PyErr.fuelOut` (recursion/loop fuel exhaustion, which cannot occur in the
  unbounded Python original) is never caught by the modelled `except` blocks;
* `rename` returns the produced Python value together with the final
  filesystem, the list of performed `os.rename` calls, and the number of
  `check_format_is_valid` invocations.
-/

namespace PdfRenamer

/-! ## Character-list string primitives (Python `str` operations) -/

/-- Path separator, `os.path.sep` (POSIX). -/
def SEP : Char := '/'

/-- Boolean prefix test on character lists. -/
def isPre : List Char → List Char → Bool
  | [], _ => true
  | _ :: _, [] => false
  | a :: as, b :: bs => a = b && isPre as bs

/-- Boolean suffix test on character lists. -/
def isSuf (a b : List Char) : Bool := isPre a.reverse b.reverse

/-- Python `s.endswith(t)`. -/
def pyEndsWith (s t : String) : Bool := isSuf t.data s.data

/-- Python `s.lower()` (ASCII). -/
def pyLower (s : String) : String := ⟨s.data.map Char.toLower⟩

/-- Characters of `d` strictly before its last separator
(used for `pathlib.Path(p).parent`). -/
def parentChars (d : List Char) : List Char :=
  ((d.reverse.dropWhile (fun c => c ≠ SEP)).drop 1).reverse

/-- Characters of `d` strictly after its last separator (the basename). -/
def baseChars (d : List Char) : List Char :=
  (d.reverse.takeWhile (fun c => c ≠ SEP)).reverse

/-- Python `str(pathlib.Path(p).parent)`: everything before the last `/`,
or `"."` when `p` has no separator. -/
def parentStr (p : String) : String :=
  if p.data.contains SEP then ⟨parentChars p.data⟩ else "."

/-- Extension part of `os.path.splitext` applied to a basename `b`:
the suffix from the last dot, empty when there is no dot or when every
character before the last dot is itself a dot (Python's leading-dot rule). -/
def extChars (b : List Char) : List Char :=
  let r := b.reverse
  let afterRev := r.takeWhile (fun c => c ≠ '.')
  if afterRev.length = b.length then []
  else if (r.drop (afterRev.length + 1)).any (fun c => c ≠ '.') then
    '.' :: afterRev.reverse
  else []

/-- Python `os.path.splitext(p)[-1]`. -/
def splitextExt (p : String) : String := ⟨extChars (baseChars p.data)⟩

/-- Name of `p` as a direct child of the separator-terminated directory
path `tSep`: the remainder after the prefix `tSep` provided it is nonempty
and separator-free, `none` otherwise. -/
def childName (tSep p : String) : Option String :=
  if isPre tSep.data p.data then
    let rest := p.data.drop tSep.data.length
    if rest.isEmpty || rest.contains SEP then none else some ⟨rest⟩
  else none

/-- The code at line 74-75 of main.py: append `os.path.sep` to a directory
target unless it already ends with it. -/
def ensureSep (t : String) : String :=
  if pyEndsWith t "/" then t else t ++ "/"

/-! ## Filesystem model -/

/-- A filesystem snapshot: full paths of regular files and of directories.
List order models directory-listing order. -/
structure FS where
  files : List String
  dirs : List String
deriving Repr, DecidableEq

/-- Python `os.path.exists`. -/
def pathExists (fs : FS) (p : String) : Bool :=
  fs.files.contains p || fs.dirs.contains p

/-- Python `os.path.isdir`. -/
def isdir (fs : FS) (p : String) : Bool := fs.dirs.contains p

/-- Python `os.listdir(tSep)`: names of the direct children (files first,
then directories, each in listing order). -/
def listdir (fs : FS) (tSep : String) : List String :=
  fs.files.filterMap (childName tSep) ++ fs.dirs.filterMap (childName tSep)

/-- Paths of the directory entries of `os.scandir(tSep)` with `is_dir()`
true (`f.path` in the code). -/
def scandirDirs (fs : FS) (tSep : String) : List String :=
  (fs.dirs.filterMap (childName tSep)).map (fun n => tSep ++ n)

/-- Effect of `os.rename(old, new)` on the snapshot. -/
def applyRename (fs : FS) (old new : String) : FS :=
  { fs with files := fs.files.map (fun p => if p = old then new else p) }

/-! ## Data model: resolver output and per-file result records -/

/-- Output dictionary of `pdf2bib.pdf2bib_singlefile` (`None` ↦ `none`). -/
structure BibResult where
  identifier : Option String
  identifier_type : Option String
  validation_info : Option String
  method : Option String
  metadata : Option (List (String × String))
  bibtex : Option String
deriving Repr, DecidableEq

/-- The per-file result dictionary returned by `rename` for a single file:
the resolver's fields plus `path_original` and `path_new`. -/
structure ProcessResult where
  identifier : Option String
  identifier_type : Option String
  validation_info : Option String
  method : Option String
  metadata : Option (List (String × String))
  bibtex : Option String
  path_original : String
  path_new : Option String
deriving Repr, DecidableEq

/-- Lines 126 and 129-163 of main.py: the returned dictionary is the
resolver dictionary updated with `path_original` and `path_new`. -/
def mkResult (r : BibResult) (orig : String) (pnew : Option String) : ProcessResult :=
  { identifier := r.identifier
    identifier_type := r.identifier_type
    validation_info := r.validation_info
    method := r.method
    metadata := r.metadata
    bibtex := r.bibtex
    path_original := orig
    path_new := pnew }

/-- Python values returned by `rename`: `None`, a result dictionary, or a
list of values. -/
inductive PyVal where
  | none : PyVal
  | dict : ProcessResult → PyVal
  | list : List PyVal → PyVal
deriving Repr

/-- Python exceptions (plus the artificial fuel-exhaustion marker). -/
inductive PyErr where
  | unboundLocal : String → PyErr
  | valueError : String → PyErr
  | osError : String → PyErr
  | typeError : String → PyErr
  | fuelOut : PyErr
deriving Repr, DecidableEq

/-- Which modelled errors an `except Exception` block catches: every real
Python exception; `fuelOut` is an artifact of the bounded model and is
never caught. -/
def catchable : PyErr → Bool
  | .fuelOut => false
  | _ => true

/-- Python truthiness of an optional string (`None` and `""` are falsy). -/
def truthyOptStr : Option String → Bool
  | Option.none => false
  | some s => !s.isEmpty

/-- Python truthiness of an optional dict (`None` and `{}` are falsy). -/
def truthyMeta : Option (List (String × String)) → Bool
  | Option.none => false
  | some m => !m.isEmpty

/-- Python truthiness of the `tags` argument (`None` and `[]` are falsy). -/
def truthyTags : Option (List String) → Bool
  | Option.none => false
  | some l => !l.isEmpty

/-! ## Environment of external collaborators -/

/-- External collaborators and global configuration used by `rename`:
the metadata resolver, the filename builder, the format checker, the
`check_subfolders` flag, the configured default format, and an oracle
injecting `os.rename` I/O failures. -/
structure Env where
  pdf2bib : String → Except String BibResult
  build_filename : List (String × String) → String → List String → String
  check_format_is_valid : String → Option (List String)
  check_subfolders : Bool
  config_format : String
  renameFails : String → String → Bool

/-! ## The collision-safe renamer (`rename_file`, lines 167-182) -/

/-- Decimal digit character: `'0'`–`'9'`. -/
def digCh (n : Nat) : Char := Char.ofNat (48 + n % 10)

/-- Decimal digits of `n`, most significant first (`fuel ≥ n` suffices). -/
def natReprAux (fuel : Nat) (n : Nat) : List Char :=
  match fuel with
  | 0 => []
  | fuel + 1 => if n < 10 then [digCh n] else natReprAux fuel (n / 10) ++ [digCh (n % 10)]

/-- Python's `str(i)` for a natural number (decimal). -/
def natRepr (n : Nat) : String := ⟨natReprAux n n⟩

/-- Candidate path probed at loop index `i` in `rename_file`:
`new_path + (f" ({i})" if i>1 else "") + ext`. -/
def candidate (new_path ext : String) (i : Nat) : String :=
  new_path ++ (if i > 1 then " (" ++ natRepr i ++ ")" else "") ++ ext

/-- The `while True` loop of `rename_file` (lines 175-182), with fuel.
On success it returns the final path, the updated filesystem and the
single performed rename. -/
def renameFileLoop (env : Env) (fs : FS) (old new_path ext : String) :
    Nat → Nat → Except PyErr (String × FS × List (String × String))
  | _, 0 => .error .fuelOut
  | i, fuel + 1 =>
    let New_path := candidate new_path ext i
    if pathExists fs New_path then
      renameFileLoop env fs old new_path ext (i + 1) fuel
    else if env.renameFails old New_path then
      .error (.osError "os.rename failed")
    else
      .ok (New_path, applyRename fs old New_path, [(old, New_path)])

/-- `rename_file(old_path, new_path, ext)`, lines 167-182 of main.py. -/
def rename_file (env : Env) (fs : FS) (old_path new_path ext : String)
    (fuel : Nat) : Except PyErr (String × FS × List (String × String)) :=
  if !(pathExists fs old_path) then
    .error (.valueError ("The file " ++ old_path ++ " does not exist"))
  else
    renameFileLoop env fs old_path new_path ext 1 fuel

/-! ## The single-file processor (lines 112-165) -/

/-- Result of a `rename` call: the returned Python value, the filesystem
after the call, the performed `os.rename` calls in order, and the number of
`check_format_is_valid` invocations. -/
structure Outcome where
  val : PyVal
  fs : FS
  renames : List (String × String)
  checks : Nat
deriving Repr

/-- Lines 112-165 of main.py: the `else` branch of `rename` processing a
single (non-directory) target.  When `pdf2bib_singlefile` raises, the
`except` handler executes `result['path_new'] = None` with the local
`result` still unbound (it is only assigned by the `try` body), so an
`UnboundLocalError` propagates. -/
def processFile (env : Env) (fs : FS) (filename fmt : String)
    (tags : List String) (rfFuel : Nat) :
    Except PyErr (PyVal × FS × List (String × String)) :=
  if !(pathExists fs filename) then .ok (.none, fs, [])
  else if !(pyEndsWith (pyLower filename) ".pdf") then .ok (.none, fs, [])
  else
    match env.pdf2bib filename with
    | .error _ => .error (.unboundLocal "result")
    | .ok r =>
      if truthyMeta r.metadata && truthyOptStr r.identifier then
        let metadata := r.metadata.getD []
        let NewName := env.build_filename metadata fmt tags
        let ext := pyLower (splitextExt filename)
        let directory := parentStr filename
        let NewPath := directory ++ "/" ++ NewName
        let NewPathWithExt := NewPath ++ ext
        if filename = NewPathWithExt then
          .ok (.dict (mkResult r filename (some NewPathWithExt)), fs, [])
        else
          match rename_file env fs filename NewPath ext rfFuel with
          | .ok (p, fs', rs) => .ok (.dict (mkResult r filename (some p)), fs', rs)
          | .error e =>
            if catchable e then .ok (.dict (mkResult r filename Option.none), fs, [])
            else .error e
      else
        .ok (.dict (mkResult r filename Option.none), fs, [])

/-! ## The directory walker (lines 72-109) -/

/-- Line 51 of main.py: `if not format: format = config.get('format')`. -/
def resolveFormat (env : Env) (format : Option String) : String :=
  match format with
  | some s => if s.isEmpty then env.config_format else s
  | Option.none => env.config_format

/-- Lines 54-58 of main.py: with falsy `tags` the format is validated by
`check_format_is_valid`, otherwise `tags` is used as is. -/
def effectiveTags (env : Env) (format : Option String)
    (tags : Option (List String)) : Option (List String) :=
  if truthyTags tags then tags
  else env.check_format_is_valid (resolveFormat env format)

/-- The `for f in pdf_files` loop (lines 88-93): process each name through
`step` (a `rename` call on `target + f`), appending each result value. -/
def foldFiles (step : FS → String → Except PyErr Outcome) :
    FS → List String → Except PyErr (List PyVal × FS × List (String × String) × Nat)
  | fs, [] => .ok ([], fs, [], 0)
  | fs, f :: rest =>
    match step fs f with
    | .error e => .error e
    | .ok o =>
      match foldFiles step o.fs rest with
      | .error e => .error e
      | .ok (items, fs2, rs, ck) =>
        .ok (o.val :: items, fs2, o.renames ++ rs, o.checks + ck)

/-- The `for subfolder in subfolders` loop (lines 102-104): recursively walk
each subfolder and `extend` the accumulator with the returned list
(a `TypeError` if a non-list were returned). -/
def foldSubs (step : FS → String → Except PyErr Outcome) :
    FS → List String → Except PyErr (List PyVal × FS × List (String × String) × Nat)
  | fs, [] => .ok ([], fs, [], 0)
  | fs, s :: rest =>
    match step fs s with
    | .error e => .error e
    | .ok o =>
      match o.val with
      | .list vs =>
        match foldSubs step o.fs rest with
        | .error e => .error e
        | .ok (items, fs2, rs, ck) =>
          .ok (vs ++ items, fs2, o.renames ++ rs, o.checks + ck)
      | _ => .error (.typeError "files_processed.extend")

/-- The main routine `rename(target, format=None, tags=None)`
(lines 17-165 of main.py), with recursion fuel.

Fidelity notes.  Line 51 resolves a falsy `format` from the configuration;
lines 54-58 validate the format when `tags` is falsy and return `None` when
validation fails; lines 61-63 return `None` for a nonexistent target;
lines 72-109 are the directory branch.  There, `files_processed` is first
assigned inside the `else` of `if numb_files == 0` (line 87), so a directory
with no direct `.pdf` children reaches `files_processed.extend(result)`
(line 104, after walking the first subfolder) or `return files_processed`
(line 109) with the accumulator unbound and raises an `UnboundLocalError`.
Each recursive call is passed the resolved `format` and the validated
`tags`, exactly as lines 92 and 103 do. -/
def rename (env : Env) (fuel : Nat) (fs : FS) (target : String)
    (format : Option String) (tags : Option (List String)) :
    Except PyErr Outcome :=
  match fuel with
  | 0 => .error .fuelOut
  | fuel' + 1 =>
    let fmt := resolveFormat env format
    let ck0 := if truthyTags tags then 0 else 1
    match effectiveTags env format tags with
    | Option.none => .ok ⟨.none, fs, [], ck0⟩
    | some ts =>
      if !(pathExists fs target) then .ok ⟨.none, fs, [], ck0⟩
      else if isdir fs target then
        let tSep := ensureSep target
        let pdf_files := (listdir fs tSep).filter
          (fun f => pyEndsWith (pyLower f) ".pdf")
        let subfolders := scandirDirs fs tSep
        if pdf_files.isEmpty then
          match subfolders, env.check_subfolders with
          | s1 :: _, true =>
            match rename env fuel' fs s1 (some fmt) (some ts) with
            | .error e => .error e
            | .ok _ => .error (.unboundLocal "files_processed")
          | _, _ => .error (.unboundLocal "files_processed")
        else
          match foldFiles
              (fun fs1 f => rename env fuel' fs1 (tSep ++ f) (some fmt) (some ts))
              fs pdf_files with
          | .error e => .error e
          | .ok (items, fs1, rs1, ck1) =>
            if !subfolders.isEmpty && env.check_subfolders then
              match foldSubs
                  (fun fs2 s => rename env fuel' fs2 s (some fmt) (some ts))
                  fs1 subfolders with
              | .error e => .error e
              | .ok (items2, fs2, rs2, ck2) =>
                .ok ⟨.list (items ++ items2), fs2, rs1 ++ rs2, ck0 + ck1 + ck2⟩
            else .ok ⟨.list items, fs1, rs1, ck0 + ck1⟩
      else
        match processFile env fs target fmt ts fuel' with
        | .error e => .error e
        | .ok (v, fs', rs) => .ok ⟨v, fs', rs, ck0⟩

/-- Expected enumeration of processed files, computed on a fixed snapshot:
for a directory target, the full paths of its direct `.pdf` children in
listing order, followed (when `check_subfolders` is enabled) by the
depth-first enumeration of each subdirectory in listing order. -/
def walkSpec (cs : Bool) (fs : FS) : Nat → String → List String
  | 0, _ => []
  | fuel + 1, target =>
    let tSep := ensureSep target
    ((listdir fs tSep).filter (fun f => pyEndsWith (pyLower f) ".pdf")).map
      (fun f => tSep ++ f)
    ++ (if cs then (scandirDirs fs tSep).flatMap (walkSpec cs fs fuel) else [])

/-- The `path_original` field of a result value, when it is a dictionary. -/
def valPathOrig : PyVal → Option String
  | .dict pr => some pr.path_original
  | _ => Option.none

/-! ## Lemmas about the collision-safe renamer -/

/-- The candidate at index 1 is the undecorated `new_path + ext`. -/
theorem candidate_one (new_path ext : String) :
    candidate new_path ext 1 = new_path ++ ext := by
  simp [candidate]

/-- Characterization of the probing loop: when some candidate at index
`i + k` (with `k < fuel`) is free and `os.rename` does not fail, the loop
stops at the first free index `j ≥ i`, having found every earlier candidate
occupied, renames `old` to that candidate and reports exactly that rename. -/
theorem renameFileLoop_spec (env : Env) (fs : FS) (old new_path ext : String)
    (hio : ∀ p, env.renameFails old p = false) :
    ∀ fuel i, (∃ k, k < fuel ∧ pathExists fs (candidate new_path ext (i + k)) = false) →
    ∃ j, i ≤ j ∧ pathExists fs (candidate new_path ext j) = false ∧
      (∀ m, i ≤ m → m < j → pathExists fs (candidate new_path ext m) = true) ∧
      renameFileLoop env fs old new_path ext i fuel =
        .ok (candidate new_path ext j, applyRename fs old (candidate new_path ext j),
          [(old, candidate new_path ext j)]) := by
  intro fuel
  induction fuel with
  | zero => intro i ⟨k, hk, _⟩; omega
  | succ fuel ih =>
    intro i ⟨k, hk, hfree⟩
    by_cases hex : pathExists fs (candidate new_path ext i) = true
    · have hk0 : k ≠ 0 := by
        intro h
        rw [h, Nat.add_zero] at hfree
        rw [hex] at hfree
        cases hfree
      obtain ⟨k', rfl⟩ := Nat.exists_eq_succ_of_ne_zero hk0
      have hrec : ∃ k, k < fuel ∧
          pathExists fs (candidate new_path ext ((i + 1) + k)) = false := by
        refine ⟨k', by omega, ?_⟩
        have : (i + 1) + k' = i + (k' + 1) := by omega
        rw [this]; exact hfree
      obtain ⟨j, hij, hjf, hmin, hquot⟩ := ih (i + 1) hrec
      refine ⟨j, by omega, hjf, ?_, ?_⟩
      · intro m him hmj
        rcases Nat.eq_or_lt_of_le him with h | h
        · rw [← h]; exact hex
        · exact hmin m h hmj
      · rw [renameFileLoop, hex]
        exact hquot
    · rw [Bool.not_eq_true] at hex
      refine ⟨i, Nat.le_refl i, hex, by omega, ?_⟩
      rw [renameFileLoop, hex]
      simp [hio]

/-- Frame property of the probing loop: on success, exactly one rename was
performed, from `old` to the returned path, which is a previously
non-existing candidate at some index `≥ i`, and the filesystem is updated by
exactly that rename. -/
theorem renameFileLoop_frame (env : Env) (fs : FS) (old new_path ext : String) :
    ∀ fuel i p fs' rs,
      renameFileLoop env fs old new_path ext i fuel = .ok (p, fs', rs) →
      rs = [(old, p)] ∧ fs' = applyRename fs old p ∧
        pathExists fs p = false ∧ ∃ j, i ≤ j ∧ p = candidate new_path ext j := by
  intro fuel
  induction fuel with
  | zero => intro i p fs' rs h; cases h
  | succ fuel ih =>
    intro i p fs' rs h
    rw [renameFileLoop] at h
    by_cases hex : pathExists fs (candidate new_path ext i) = true
    · rw [hex] at h
      simp only [if_true] at h
      obtain ⟨h1, h2, h3, j, hj, hp⟩ := ih (i + 1) p fs' rs h
      exact ⟨h1, h2, h3, j, by omega, hp⟩
    · rw [Bool.not_eq_true] at hex
      rw [hex] at h
      simp only [Bool.false_eq_true, if_false] at h
      by_cases hio : env.renameFails old (candidate new_path ext i) = true
      · rw [hio] at h; simp at h
      · rw [Bool.not_eq_true] at hio
        rw [hio] at h
        simp only [Bool.false_eq_true, if_false, Except.ok.injEq, Prod.mk.injEq] at h
        obtain ⟨hp, hfs, hrs⟩ := h
        subst hp
        exact ⟨hrs.symm, hfs.symm, hex, i, Nat.le_refl i, rfl⟩

/-- Frame property of `rename_file`: on success, the old path existed, the
returned path is a previously non-existing candidate at some index `≥ 1`,
exactly one rename was performed and the filesystem is updated by it. -/
theorem rename_file_frame (env : Env) (fs : FS) (old new_path ext : String)
    (fuel : Nat) (p : String) (fs' : FS) (rs : List (String × String))
    (h : rename_file env fs old new_path ext fuel = .ok (p, fs', rs)) :
    pathExists fs old = true ∧ rs = [(old, p)] ∧ fs' = applyRename fs old p ∧
      pathExists fs p = false ∧ ∃ j, 1 ≤ j ∧ p = candidate new_path ext j := by
  rw [rename_file] at h
  by_cases hold : pathExists fs old = true
  · rw [hold] at h
    simp only [Bool.not_true, Bool.false_eq_true, if_false] at h
    obtain ⟨h1, h2, h3, hj⟩ := renameFileLoop_frame env fs old new_path ext fuel 1 p fs' rs h
    exact ⟨hold, h1, h2, h3, hj⟩
  · rw [Bool.not_eq_true] at hold
    rw [hold] at h
    simp at h

/-! ## Shared concrete instances for witnesses and counterexamples -/

/-- A resolver output with full bibliographic data. -/
def fullBib : BibResult :=
  ⟨some "10.1000/x", some "doi", some "True", some "title_google",
    some [("title", "T"), ("year", "2020")], some "@article"⟩

/-- A resolver output where no identifier was found. -/
def emptyBib : BibResult :=
  ⟨Option.none, Option.none, Option.none, Option.none, Option.none, Option.none⟩

/-- A concrete environment: resolver always succeeds with full data, the
builder always produces `"Smith2020"`, subfolder recursion disabled, no
injected I/O failures. -/
def envA : Env where
  pdf2bib := fun _ => .ok fullBib
  build_filename := fun _ _ _ => "Smith2020"
  check_format_is_valid := fun _ => some ["{T}"]
  check_subfolders := false
  config_format := "fmt"
  renameFails := fun _ _ => false

/-- A concrete snapshot with two occupied candidate names, so that the
collision loop must probe up to index 3. -/
def fsColl : FS := ⟨["r/a.pdf", "r/Smith2020.pdf", "r/Smith2020 (2).pdf"], ["r"]⟩

/-! ## C3 and C9: the collision-safe renamer -/

/-- C3: for `rename_file(old_path, new_path, ext)` with `old_path` existing
and some free candidate within the fuel bound, the call renames `old_path`
to the first candidate `new_path (+ " (i)" for i ≥ 2) + ext` that does not
exist, probing indices in increasing order, returns that path, performs
exactly one filesystem rename, and in particular uses `new_path + ext`
itself when that is free.  Determinism given a fixed snapshot is immediate
because the model is a function of the snapshot. -/
theorem rename_file_collision_spec (env : Env) (fs : FS)
    (old new_path ext : String) (fuel k : Nat)
    (hold : pathExists fs old = true)
    (hk1 : 1 ≤ k)
    (hkfree : pathExists fs (candidate new_path ext k) = false)
    (hfuel : k ≤ fuel)
    (hio : ∀ p, env.renameFails old p = false) :
    ∃ j, 1 ≤ j ∧ pathExists fs (candidate new_path ext j) = false ∧
      (∀ m, 1 ≤ m → m < j → pathExists fs (candidate new_path ext m) = true) ∧
      rename_file env fs old new_path ext fuel =
        .ok (candidate new_path ext j, applyRename fs old (candidate new_path ext j),
          [(old, candidate new_path ext j)]) ∧
      (pathExists fs (new_path ++ ext) = false → j = 1) := by
  have hex : ∃ kk, kk < fuel ∧
      pathExists fs (candidate new_path ext (1 + kk)) = false := by
    refine ⟨k - 1, by omega, ?_⟩
    have : 1 + (k - 1) = k := by omega
    rw [this]; exact hkfree
  obtain ⟨j, hj1, hjfree, hmin, hquot⟩ :=
    renameFileLoop_spec env fs old new_path ext hio fuel 1 hex
  refine ⟨j, hj1, hjfree, hmin, ?_, ?_⟩
  · rw [rename_file, hold]
    simpa using hquot
  · intro hone
    by_contra hne
    have hj2 : 1 < j := by omega
    have := hmin 1 (Nat.le_refl 1) hj2
    rw [candidate_one] at this
    rw [hone] at this
    cases this

/-- Witness for C3 at a concrete input: with `r/Smith2020.pdf` and
`r/Smith2020 (2).pdf` occupied, renaming `r/a.pdf` to base `r/Smith2020`
probes indices 1 and 2 and lands on `r/Smith2020 (3).pdf`. -/
theorem rename_file_collision_spec_witness :
    ∃ j, 1 ≤ j ∧ pathExists fsColl (candidate "r/Smith2020" ".pdf" j) = false ∧
      (∀ m, 1 ≤ m → m < j →
        pathExists fsColl (candidate "r/Smith2020" ".pdf" m) = true) ∧
      rename_file envA fsColl "r/a.pdf" "r/Smith2020" ".pdf" 10 =
        .ok (candidate "r/Smith2020" ".pdf" j,
          applyRename fsColl "r/a.pdf" (candidate "r/Smith2020" ".pdf" j),
          [("r/a.pdf", candidate "r/Smith2020" ".pdf" j)]) ∧
      (pathExists fsColl ("r/Smith2020" ++ ".pdf") = false → j = 1) :=
  rename_file_collision_spec envA fsColl "r/a.pdf" "r/Smith2020" ".pdf" 10 3
    (by decide) (by decide) (by decide) (by decide) (fun _ => rfl)

/-- C9: `rename_file` with a nonexistent `old_path` raises a `ValueError`
(the not-found error) before reaching the rename, so no filesystem rename is
performed. -/
theorem rename_file_notfound (env : Env) (fs : FS)
    (old_path new_path ext : String) (fuel : Nat)
    (h : pathExists fs old_path = false) :
    rename_file env fs old_path new_path ext fuel =
      .error (.valueError ("The file " ++ old_path ++ " does not exist")) := by
  simp [rename_file, h]

/-- Witness for C9 at a concrete input. -/
theorem rename_file_notfound_witness :
    rename_file envA fsColl "r/ghost.pdf" "r/Smith2020" ".pdf" 10 =
      .error (.valueError ("The file " ++ "r/ghost.pdf" ++ " does not exist")) :=
  rename_file_notfound envA fsColl "r/ghost.pdf" "r/Smith2020" ".pdf" 10 (by decide)

/-! ## Dispatch of `rename` to the single-file branch -/

/-- For a non-directory target (after format/tags validation succeeded), a
`rename` call is the single-file branch `processFile`, with the number of
performed format checks recorded. -/
theorem rename_nondir (env : Env) (fuel : Nat) (fs : FS) (target : String)
    (format : Option String) (tags : Option (List String)) (ts : List String)
    (hts : effectiveTags env format tags = some ts)
    (hnd : isdir fs target = false) :
    rename env (fuel + 1) fs target format tags =
      (match processFile env fs target (resolveFormat env format) ts fuel with
       | .error e => .error e
       | .ok (v, fs', rs) =>
         .ok ⟨v, fs', rs, if truthyTags tags then 0 else 1⟩) := by
  rw [rename]
  simp only [hts, hnd]
  by_cases hex : pathExists fs target = true
  · simp [hex]
  · rw [Bool.not_eq_true] at hex
    simp [hex, processFile]

/-! ## Characterization of the single-file branch -/

/-- Single-file branch on an existing `.pdf` target whose resolver call
raises: the `except` handler's `result['path_new'] = None` hits the unbound
local `result` and an `UnboundLocalError` propagates. -/
theorem processFile_resolver_error (env : Env) (fs : FS) (filename fmt : String)
    (tags : List String) (rfFuel : Nat) (e : String)
    (hex : pathExists fs filename = true)
    (hpdf : pyEndsWith (pyLower filename) ".pdf" = true)
    (hres : env.pdf2bib filename = .error e) :
    processFile env fs filename fmt tags rfFuel = .error (.unboundLocal "result") := by
  simp [processFile, hex, hpdf, hres]

/-- Single-file branch when the resolver succeeds but the metadata/identifier
pair is falsy: the record is returned with `path_new = None`, no rename. -/
theorem processFile_no_identifier (env : Env) (fs : FS) (filename fmt : String)
    (tags : List String) (rfFuel : Nat) (r : BibResult)
    (hex : pathExists fs filename = true)
    (hpdf : pyEndsWith (pyLower filename) ".pdf" = true)
    (hres : env.pdf2bib filename = .ok r)
    (htr : (truthyMeta r.metadata && truthyOptStr r.identifier) = false) :
    processFile env fs filename fmt tags rfFuel =
      .ok (.dict (mkResult r filename Option.none), fs, []) := by
  simp [processFile, hex, hpdf, hres, htr]

/-- Single-file branch when the candidate path equals the original path:
nothing is renamed and `path_new` is set to the (unchanged) path. -/
theorem processFile_noop (env : Env) (fs : FS) (filename fmt : String)
    (tags : List String) (rfFuel : Nat) (r : BibResult)
    (hex : pathExists fs filename = true)
    (hpdf : pyEndsWith (pyLower filename) ".pdf" = true)
    (hres : env.pdf2bib filename = .ok r)
    (htr : (truthyMeta r.metadata && truthyOptStr r.identifier) = true)
    (heq : parentStr filename ++ "/" ++
        env.build_filename (r.metadata.getD []) fmt tags ++
        pyLower (splitextExt filename) = filename) :
    processFile env fs filename fmt tags rfFuel =
      .ok (.dict (mkResult r filename (some filename)), fs, []) := by
  simp only [processFile, hex, hpdf, hres, htr, Bool.not_true, Bool.false_eq_true,
    if_false, if_true]
  rw [if_pos heq.symm, heq]

/-- Single-file branch when the candidate path differs and `rename_file`
succeeds: the final path is recorded and the rename performed. -/
theorem processFile_renamed (env : Env) (fs : FS) (filename fmt : String)
    (tags : List String) (rfFuel : Nat) (r : BibResult) (p : String) (fs' : FS)
    (rs : List (String × String))
    (hex : pathExists fs filename = true)
    (hpdf : pyEndsWith (pyLower filename) ".pdf" = true)
    (hres : env.pdf2bib filename = .ok r)
    (htr : (truthyMeta r.metadata && truthyOptStr r.identifier) = true)
    (hne : parentStr filename ++ "/" ++
        env.build_filename (r.metadata.getD []) fmt tags ++
        pyLower (splitextExt filename) ≠ filename)
    (hrf : rename_file env fs filename
        (parentStr filename ++ "/" ++ env.build_filename (r.metadata.getD []) fmt tags)
        (pyLower (splitextExt filename)) rfFuel = .ok (p, fs', rs)) :
    processFile env fs filename fmt tags rfFuel =
      .ok (.dict (mkResult r filename (some p)), fs', rs) := by
  simp only [processFile, hex, hpdf, hres, htr, Bool.not_true, Bool.false_eq_true,
    if_false, if_true]
  rw [if_neg (fun hh => hne hh.symm)]
  rw [hrf]

/-- Single-file branch when the candidate path differs and `rename_file`
raises a (catchable) exception: it is caught, `path_new` is set to `None`,
and the populated record is still returned with no filesystem change. -/
theorem processFile_rename_error (env : Env) (fs : FS) (filename fmt : String)
    (tags : List String) (rfFuel : Nat) (r : BibResult) (e : PyErr)
    (hex : pathExists fs filename = true)
    (hpdf : pyEndsWith (pyLower filename) ".pdf" = true)
    (hres : env.pdf2bib filename = .ok r)
    (htr : (truthyMeta r.metadata && truthyOptStr r.identifier) = true)
    (hne : parentStr filename ++ "/" ++
        env.build_filename (r.metadata.getD []) fmt tags ++
        pyLower (splitextExt filename) ≠ filename)
    (hrf : rename_file env fs filename
        (parentStr filename ++ "/" ++ env.build_filename (r.metadata.getD []) fmt tags)
        (pyLower (splitextExt filename)) rfFuel = .error e)
    (hc : catchable e = true) :
    processFile env fs filename fmt tags rfFuel =
      .ok (.dict (mkResult r filename Option.none), fs, []) := by
  simp only [processFile, hex, hpdf, hres, htr, Bool.not_true, Bool.false_eq_true,
    if_false, if_true]
  rw [if_neg (fun hh => hne hh.symm)]
  rw [hrf]
  simp [hc]

/-- A directory path exists. -/
theorem pathExists_of_isdir (fs : FS) (p : String) (h : isdir fs p = true) :
    pathExists fs p = true := by
  simp only [pathExists, Bool.or_eq_true]
  exact Or.inr h

/-- A `rename` call on a directory target never returns a dictionary: the
directory branch always yields a list (or `None` before dispatch). -/
theorem rename_isdir_not_dict (env : Env) (fuel : Nat) (fs : FS) (target : String)
    (format : Option String) (tags : Option (List String)) (out : Outcome)
    (hd : isdir fs target = true)
    (hrun : rename env fuel fs target format tags = .ok out) :
    ∀ pr, out.val ≠ PyVal.dict pr := by
  cases fuel with
  | zero => cases hrun
  | succ fuel' =>
    rw [rename] at hrun
    split at hrun
    · simp only [Except.ok.injEq] at hrun
      subst hrun
      intro pr h; cases h
    · by_cases hex : pathExists fs target = true
      · rw [hex] at hrun
        simp only [Bool.not_true, Bool.false_eq_true, if_false, hd, if_true] at hrun
        split at hrun
        · split at hrun
          · split at hrun
            · cases hrun
            · cases hrun
          · cases hrun
        · split at hrun
          · cases hrun
          · split at hrun
            · split at hrun
              · cases hrun
              · simp only [Except.ok.injEq] at hrun
                subst hrun
                intro pr h; cases h
            · simp only [Except.ok.injEq] at hrun
              subst hrun
              intro pr h; cases h
      · rw [Bool.not_eq_true] at hex
        rw [hex] at hrun
        simp only [Bool.not_false, if_true, Except.ok.injEq] at hrun
        subst hrun
        intro pr h; cases h

/-- Every dictionary produced by the single-file branch satisfies the
`path_new` invariant: `path_new` is non-`None` only when both the metadata
and the identifier are (Python-)truthy, and with a falsy metadata or
identifier the record carries `path_new = None`. -/
theorem processFile_dict_invariant (env : Env) (fs : FS) (filename fmt : String)
    (tags : List String) (rfFuel : Nat) (pr : ProcessResult) (fs' : FS)
    (rs : List (String × String))
    (h : processFile env fs filename fmt tags rfFuel = .ok (.dict pr, fs', rs)) :
    (pr.path_new ≠ Option.none →
      truthyMeta pr.metadata = true ∧ truthyOptStr pr.identifier = true) ∧
    ((truthyMeta pr.metadata = false ∨ truthyOptStr pr.identifier = false) →
      pr.path_new = Option.none) := by
  rw [processFile] at h
  split at h
  · simp at h
  · split at h
    · simp at h
    · split at h
      · cases h
      · rename_i r _
        split at h
        · rename_i htr
          rw [Bool.and_eq_true] at htr
          dsimp only at h
          split at h
          · simp only [Except.ok.injEq, Prod.mk.injEq] at h
            obtain ⟨h1, _, _⟩ := h
            cases h1
            subst_vars
            refine ⟨fun _ => ⟨htr.1, htr.2⟩, fun hc => ?_⟩
            simp only [mkResult] at hc
            rcases hc with hc | hc
            · rw [htr.1] at hc; cases hc
            · rw [htr.2] at hc; cases hc
          · split at h
            · simp only [Except.ok.injEq, Prod.mk.injEq] at h
              obtain ⟨h1, _, _⟩ := h
              cases h1
              subst_vars
              refine ⟨fun _ => ⟨htr.1, htr.2⟩, fun hc => ?_⟩
              simp only [mkResult] at hc
              rcases hc with hc | hc
              · rw [htr.1] at hc; cases hc
              · rw [htr.2] at hc; cases hc
            · split at h
              · simp only [Except.ok.injEq, Prod.mk.injEq] at h
                obtain ⟨h1, _, _⟩ := h
                cases h1
                subst_vars
                exact ⟨fun hc => absurd rfl hc, fun _ => rfl⟩
              · cases h
        · simp only [Except.ok.injEq, Prod.mk.injEq] at h
          obtain ⟨h1, _, _⟩ := h
          cases h1
          subst_vars
          exact ⟨fun hc => absurd rfl hc, fun _ => rfl⟩

/-! ## Further concrete instances -/

/-- Environment whose resolver finds no identifier. -/
def envE : Env := { envA with pdf2bib := fun _ => .ok emptyBib }

/-- Environment whose resolver raises an unexpected exception. -/
def envBoom : Env :=
  { envA with pdf2bib := fun _ => .error "unexpected resolver failure" }

/-- Environment where every `os.rename` call fails with an `OSError`. -/
def envFail : Env := { envA with renameFails := fun _ _ => true }

/-- One pdf file in a directory. -/
def fsE : FS := ⟨["r/a.pdf"], ["r"]⟩

/-- A non-pdf file in a directory. -/
def fsTxt : FS := ⟨["r/a.txt"], ["r"]⟩

/-- A directory whose only pdf file lives inside a subfolder. -/
def fsSub : FS := ⟨["r/s/x.pdf"], ["r", "r/s"]⟩

/-- Two sibling pdf files in a directory. -/
def fsSib : FS := ⟨["r/a.pdf", "r/b.pdf"], ["r"]⟩

/-- A file already carrying its canonical name. -/
def fsCanon : FS := ⟨["r/Smith2020.pdf"], ["r"]⟩

/-! ## C1 and C2: the two accumulator bugs -/

/-- C1: for the directory `r` of `fsSub`, which exists, contains no direct
`.pdf` child and has its pdf files only inside the subfolder `r/s`, with
subfolder recursion disabled, the walk does not return an empty list: the
accumulator `files_processed` is only assigned when at least one direct pdf
file is found (line 87 of main.py), so `return files_processed` (line 109)
raises an `UnboundLocalError`. -/
theorem empty_dir_unbound_local :
    isdir fsSub "r" = true ∧
    envA.check_subfolders = false ∧
    (listdir fsSub "r/").filter (fun f => pyEndsWith (pyLower f) ".pdf") = [] ∧
    rename envA 6 fsSub "r" Option.none (some ["t"]) =
      .error (.unboundLocal "files_processed") :=
  ⟨rfl, rfl, rfl, rfl⟩

/-- C2: when `pdf2bib_singlefile` raises, the `except` handler (line 163 of
main.py) executes `result['path_new'] = None` with the local `result` never
assigned, so an `UnboundLocalError` propagates out of `rename` — both for a
single-file call and, through the `for f in pdf_files` loop, for a
directory walk, aborting the processing of the sibling `r/b.pdf`. -/
theorem resolver_error_escapes :
    rename envBoom 2 fsSib "r/a.pdf" Option.none (some ["t"]) =
      .error (.unboundLocal "result") ∧
    rename envBoom 6 fsSib "r" Option.none (some ["t"]) =
      .error (.unboundLocal "result") :=
  ⟨rfl, rfl⟩

/-! ## C4: the `path_new` invariant -/

/-- C4: in every result record returned by the single-file branch of
`rename`, `path_new` is non-null only if both the metadata and the
identifier are (Python-)truthy; whenever the resolver found no identifier or
no metadata, `path_new` is explicitly `None` — in particular it is never a
copy of `path_original`. -/
theorem path_new_requires_identifier (env : Env) (fuel : Nat) (fs : FS)
    (target : String) (format : Option String) (tags : Option (List String))
    (out : Outcome) (pr : ProcessResult)
    (hrun : rename env fuel fs target format tags = .ok out)
    (hdict : out.val = .dict pr) :
    (pr.path_new ≠ Option.none →
      truthyMeta pr.metadata = true ∧ truthyOptStr pr.identifier = true) ∧
    ((truthyMeta pr.metadata = false ∨ truthyOptStr pr.identifier = false) →
      pr.path_new = Option.none ∧ pr.path_new ≠ some pr.path_original) := by
  cases fuel with
  | zero => cases hrun
  | succ fuel' =>
    by_cases hd : isdir fs target = true
    · exact absurd hdict
        (rename_isdir_not_dict env (fuel' + 1) fs target format tags out hd hrun pr)
    · rw [Bool.not_eq_true] at hd
      cases hts : effectiveTags env format tags with
      | none =>
        rw [rename, hts] at hrun
        simp only [Except.ok.injEq] at hrun
        subst hrun
        cases hdict
      | some ts =>
        rw [rename_nondir env fuel' fs target format tags ts hts hd] at hrun
        cases hpf : processFile env fs target (resolveFormat env format) ts fuel' with
        | error e => rw [hpf] at hrun; cases hrun
        | ok vtr =>
          obtain ⟨v, fs', rs⟩ := vtr
          rw [hpf] at hrun
          simp only [Except.ok.injEq] at hrun
          subst hrun
          dsimp only at hdict
          subst hdict
          have hinv := processFile_dict_invariant env fs target
            (resolveFormat env format) ts fuel' pr fs' rs hpf
          refine ⟨hinv.1, fun hc => ⟨hinv.2 hc, ?_⟩⟩
          rw [hinv.2 hc]
          intro hh; cases hh

/-- Witness for C4 at a concrete input: a resolver returning no identifier
produces the record `mkResult emptyBib "r/a.pdf" None`, whose `path_new`
is `None` and differs from `some path_original`. -/
theorem path_new_requires_identifier_witness :
    ((mkResult emptyBib "r/a.pdf" Option.none).path_new ≠ Option.none →
      truthyMeta (mkResult emptyBib "r/a.pdf" Option.none).metadata = true ∧
      truthyOptStr (mkResult emptyBib "r/a.pdf" Option.none).identifier = true) ∧
    ((truthyMeta (mkResult emptyBib "r/a.pdf" Option.none).metadata = false ∨
      truthyOptStr (mkResult emptyBib "r/a.pdf" Option.none).identifier = false) →
      (mkResult emptyBib "r/a.pdf" Option.none).path_new = Option.none ∧
      (mkResult emptyBib "r/a.pdf" Option.none).path_new ≠
        some (mkResult emptyBib "r/a.pdf" Option.none).path_original) :=
  path_new_requires_identifier envE 2 fsE "r/a.pdf" Option.none (some ["t"])
    ⟨.dict (mkResult emptyBib "r/a.pdf" Option.none), fsE, [], 0⟩
    (mkResult emptyBib "r/a.pdf" Option.none) rfl rfl

/-! ## C5: no-op when the candidate equals the original path -/

/-- C5: when the resolved metadata produces a candidate path byte-identical
to the original path, the single-file branch performs no filesystem rename
(the snapshot and the rename trace are unchanged) and sets `path_new` equal
to `path_original`. -/
theorem noop_when_candidate_unchanged (env : Env) (fuel : Nat) (fs : FS)
    (target : String) (format : Option String) (tags : Option (List String))
    (ts : List String) (r : BibResult)
    (hts : effectiveTags env format tags = some ts)
    (hnd : isdir fs target = false)
    (hex : pathExists fs target = true)
    (hpdf : pyEndsWith (pyLower target) ".pdf" = true)
    (hres : env.pdf2bib target = .ok r)
    (htr : (truthyMeta r.metadata && truthyOptStr r.identifier) = true)
    (heq : parentStr target ++ "/" ++
      env.build_filename (r.metadata.getD []) (resolveFormat env format) ts ++
      pyLower (splitextExt target) = target) :
    rename env (fuel + 1) fs target format tags =
      .ok ⟨.dict (mkResult r target (some target)), fs, [],
        if truthyTags tags then 0 else 1⟩ := by
  rw [rename_nondir env fuel fs target format tags ts hts hnd]
  rw [processFile_noop env fs target (resolveFormat env format) ts fuel r
    hex hpdf hres htr heq]

/-- Witness for C5 at a concrete input: `r/Smith2020.pdf` already carries
the name the builder produces, so the run returns `path_new =
path_original` with an unchanged filesystem and an empty rename trace. -/
theorem noop_when_candidate_unchanged_witness :
    rename envA 4 fsCanon "r/Smith2020.pdf" Option.none (some ["t"]) =
      .ok ⟨.dict (mkResult fullBib "r/Smith2020.pdf" (some "r/Smith2020.pdf")),
        fsCanon, [], 0⟩ :=
  noop_when_candidate_unchanged envA 3 fsCanon "r/Smith2020.pdf" Option.none
    (some ["t"]) ["t"] fullBib rfl (by decide) (by decide) (by decide) rfl
    (by decide) (by decide)

/-! ## C6: non-pdf target -/

/-- C6 counterexample: for the existing non-pdf file `r/a.txt` the call does
not return a failure result record with `path_new` absent — it returns
Python `None`, which carries no fields at all. -/
theorem nonpdf_claim_counterexample :
    ¬ ∃ (out : Outcome) (pr : ProcessResult),
      rename envA 3 fsTxt "r/a.txt" Option.none (some ["t"]) = .ok out ∧
      out.val = .dict pr ∧ pr.path_new = Option.none := by
  rintro ⟨out, pr, hrun, hdict, -⟩
  have h0 : rename envA 3 fsTxt "r/a.txt" Option.none (some ["t"]) =
      .ok ⟨.none, fsTxt, [], 0⟩ := rfl
  rw [h0] at hrun
  simp only [Except.ok.injEq] at hrun
  subst hrun
  cases hdict

/-- C6 amended: for an existing target that is not a directory and lacks a
case-insensitive `.pdf` extension, `rename` returns Python `None` (no result
record), raises no exception, and leaves the filesystem untouched. -/
theorem nonpdf_file_returns_python_none (env : Env) (fuel : Nat) (fs : FS)
    (target : String) (format : Option String) (tags : Option (List String))
    (ts : List String)
    (hts : effectiveTags env format tags = some ts)
    (hnd : isdir fs target = false)
    (hex : pathExists fs target = true)
    (hpdf : pyEndsWith (pyLower target) ".pdf" = false) :
    rename env (fuel + 1) fs target format tags =
      .ok ⟨.none, fs, [], if truthyTags tags then 0 else 1⟩ := by
  have hp : processFile env fs target (resolveFormat env format) ts fuel =
      .ok (.none, fs, []) := by
    simp [processFile, hex, hpdf]
  rw [rename_nondir env fuel fs target format tags ts hts hnd, hp]

/-- Witness for the amended C6 at a concrete input. -/
theorem nonpdf_file_returns_python_none_witness :
    rename envA 4 fsTxt "r/a.txt" Option.none (some ["t"]) =
      .ok ⟨.none, fsTxt, [], 0⟩ :=
  nonpdf_file_returns_python_none envA 3 fsTxt "r/a.txt" Option.none
    (some ["t"]) ["t"] rfl (by decide) (by decide) (by decide)

/-! ## C7: renamer failure preserves the populated record -/

/-- C7: when the resolver succeeded with truthy identifier and metadata, the
candidate differs from the original path, and the `rename_file` call raises
a (catchable) exception, the single-file branch catches it, sets `path_new`
to `None`, and still returns the record populated from the resolver (its
identifier, metadata and remaining fields are those of `r`, by `mkResult`),
with the filesystem unchanged and no rename recorded. -/
theorem renamer_failure_preserves_record (env : Env) (fuel : Nat) (fs : FS)
    (target : String) (format : Option String) (tags : Option (List String))
    (ts : List String) (r : BibResult) (e : PyErr)
    (hts : effectiveTags env format tags = some ts)
    (hnd : isdir fs target = false)
    (hex : pathExists fs target = true)
    (hpdf : pyEndsWith (pyLower target) ".pdf" = true)
    (hres : env.pdf2bib target = .ok r)
    (htr : (truthyMeta r.metadata && truthyOptStr r.identifier) = true)
    (hne : parentStr target ++ "/" ++
      env.build_filename (r.metadata.getD []) (resolveFormat env format) ts ++
      pyLower (splitextExt target) ≠ target)
    (hrf : rename_file env fs target
      (parentStr target ++ "/" ++
        env.build_filename (r.metadata.getD []) (resolveFormat env format) ts)
      (pyLower (splitextExt target)) fuel = .error e)
    (hc : catchable e = true) :
    rename env (fuel + 1) fs target format tags =
      .ok ⟨.dict (mkResult r target Option.none), fs, [],
        if truthyTags tags then 0 else 1⟩ := by
  rw [rename_nondir env fuel fs target format tags ts hts hnd]
  rw [processFile_rename_error env fs target (resolveFormat env format) ts fuel
    r e hex hpdf hres htr hne hrf hc]

/-- Witness for C7 at a concrete input: with every `os.rename` failing, the
run on `r/a.pdf` returns the fully populated record with `path_new = None`
and an unchanged filesystem. -/
theorem renamer_failure_preserves_record_witness :
    rename envFail 6 fsE "r/a.pdf" Option.none (some ["t"]) =
      .ok ⟨.dict (mkResult fullBib "r/a.pdf" Option.none), fsE, [], 0⟩ :=
  renamer_failure_preserves_record envFail 5 fsE "r/a.pdf" Option.none
    (some ["t"]) ["t"] fullBib (.osError "os.rename failed") rfl (by decide)
    (by decide) (by decide) rfl (by decide) (by decide) rfl rfl

/-! ## C10: the format check is skipped when tags are passed -/

/-- With truthy `tags`, lines 54-58 use them unchanged. -/
theorem effectiveTags_truthy (env : Env) (format : Option String)
    (tags : Option (List String)) (h : truthyTags tags = true) :
    effectiveTags env format tags = tags := by
  simp [effectiveTags, h]

/-- The probing loop only consults the `renameFails` oracle of the
environment. -/
theorem renameFileLoop_env (env env' : Env)
    (h : env'.renameFails = env.renameFails) (fs : FS) (old np ext : String) :
    ∀ fuel i, renameFileLoop env' fs old np ext i fuel =
      renameFileLoop env fs old np ext i fuel := by
  intro fuel
  induction fuel with
  | zero => intro i; rfl
  | succ fuel ih =>
    intro i
    rw [renameFileLoop, renameFileLoop, h, ih]

/-- `rename_file` only consults the `renameFails` oracle of the
environment. -/
theorem rename_file_env (env env' : Env)
    (h : env'.renameFails = env.renameFails) :
    ∀ fs old np ext fuel, rename_file env' fs old np ext fuel =
      rename_file env fs old np ext fuel := by
  intro fs old np ext fuel
  rw [rename_file, rename_file, renameFileLoop_env env env' h]

/-- The single-file branch never consults `check_format_is_valid` (it only
uses the resolver, the builder and the rename-failure oracle). -/
theorem processFile_env (env env' : Env)
    (h1 : env'.pdf2bib = env.pdf2bib)
    (h2 : env'.build_filename = env.build_filename)
    (h3 : env'.renameFails = env.renameFails) :
    ∀ fs filename fmt tags rfFuel,
      processFile env' fs filename fmt tags rfFuel =
        processFile env fs filename fmt tags rfFuel := by
  intro fs filename fmt tags rfFuel
  rw [processFile, processFile, h1, h2]
  simp only [rename_file_env env env' h3]

/-- Pointwise-equal steps make `foldFiles` agree. -/
theorem foldFiles_congr (step1 step2 : FS → String → Except PyErr Outcome)
    (h : ∀ a b, step1 a b = step2 a b) :
    ∀ fs l, foldFiles step1 fs l = foldFiles step2 fs l := by
  intro fs l
  induction l generalizing fs with
  | nil => rfl
  | cons f rest ih =>
    rw [foldFiles, foldFiles, h]
    cases step2 fs f with
    | error e => rfl
    | ok o =>
      dsimp only
      rw [ih]

/-- Pointwise-equal steps make `foldSubs` agree. -/
theorem foldSubs_congr (step1 step2 : FS → String → Except PyErr Outcome)
    (h : ∀ a b, step1 a b = step2 a b) :
    ∀ fs l, foldSubs step1 fs l = foldSubs step2 fs l := by
  intro fs l
  induction l generalizing fs with
  | nil => rfl
  | cons s rest ih =>
    rw [foldSubs, foldSubs, h]
    cases step2 fs s with
    | error e => rfl
    | ok o =>
      dsimp only
      cases o.val with
      | list vs => rw [ih]
      | none => rfl
      | dict pr => rfl

/-- A `foldFiles` over a check-free step performs no checks. -/
theorem foldFiles_checks (step : FS → String → Except PyErr Outcome)
    (hstep : ∀ a b o, step a b = .ok o → o.checks = 0) :
    ∀ l fs items fs2 rs ck,
      foldFiles step fs l = .ok (items, fs2, rs, ck) → ck = 0 := by
  intro l
  induction l with
  | nil =>
    intro fs items fs2 rs ck h
    rw [foldFiles] at h
    simp only [Except.ok.injEq, Prod.mk.injEq] at h
    omega
  | cons f rest ih =>
    intro fs items fs2 rs ck h
    rw [foldFiles] at h
    cases hstep1 : step fs f with
    | error e => rw [hstep1] at h; cases h
    | ok o =>
      rw [hstep1] at h
      dsimp only at h
      cases hrec : foldFiles step o.fs rest with
      | error e => rw [hrec] at h; cases h
      | ok q =>
        obtain ⟨items', fs2', rs', ck'⟩ := q
        rw [hrec] at h
        simp only [Except.ok.injEq, Prod.mk.injEq] at h
        have h1 := hstep fs f o hstep1
        have h2 := ih o.fs items' fs2' rs' ck' hrec
        omega

/-- A `foldSubs` over a check-free step performs no checks. -/
theorem foldSubs_checks (step : FS → String → Except PyErr Outcome)
    (hstep : ∀ a b o, step a b = .ok o → o.checks = 0) :
    ∀ l fs items fs2 rs ck,
      foldSubs step fs l = .ok (items, fs2, rs, ck) → ck = 0 := by
  intro l
  induction l with
  | nil =>
    intro fs items fs2 rs ck h
    rw [foldSubs] at h
    simp only [Except.ok.injEq, Prod.mk.injEq] at h
    omega
  | cons s rest ih =>
    intro fs items fs2 rs ck h
    rw [foldSubs] at h
    cases hstep1 : step fs s with
    | error e => rw [hstep1] at h; cases h
    | ok o =>
      rw [hstep1] at h
      dsimp only at h
      cases hov : o.val with
      | list vs =>
        rw [hov] at h
        cases hrec : foldSubs step o.fs rest with
        | error e => rw [hrec] at h; cases h
        | ok q =>
          obtain ⟨items', fs2', rs', ck'⟩ := q
          rw [hrec] at h
          simp only [Except.ok.injEq, Prod.mk.injEq] at h
          have h1 := hstep fs s o hstep1
          have h2 := ih o.fs items' fs2' rs' ck' hrec
          omega
      | none => rw [hov] at h; cases h
      | dict pr => rw [hov] at h; cases h

/-- C10: with a truthy `tags` argument, `check_format_is_valid` is never
invoked: the whole run is independent of that collaborator (so an arbitrary,
possibly invalid, format is forwarded unchecked to filename building), no
check is counted anywhere in the walk, and the early `None` return for an
invalid format cannot trigger. -/
theorem format_check_skipped_with_tags (env : Env)
    (g : String → Option (List String)) (fuel : Nat) (fs : FS)
    (target : String) (format : Option String) (tags : Option (List String))
    (htags : truthyTags tags = true) :
    rename { env with check_format_is_valid := g } fuel fs target format tags =
      rename env fuel fs target format tags ∧
    (∀ out, rename env fuel fs target format tags = .ok out →
      out.checks = 0) := by
  induction fuel generalizing fs target format tags with
  | zero => exact ⟨rfl, fun out h => by cases h⟩
  | succ fuel ih =>
    have htags' : ∀ ts : List String, tags = some ts → truthyTags (some ts) = true := by
      intro ts h; rw [← h]; exact htags
    rw [rename, rename]
    rw [effectiveTags_truthy _ _ _ htags, effectiveTags_truthy _ _ _ htags]
    cases tags with
    | none => cases htags
    | some ts =>
      simp only [htags, if_true]
      have hrf : resolveFormat { env with check_format_is_valid := g } format =
          resolveFormat env format := rfl
      rw [hrf]
      set fmt := resolveFormat env format with hfmt
      have hstep_eq : ∀ a b,
          rename { env with check_format_is_valid := g } fuel a b (some fmt) (some ts) =
            rename env fuel a b (some fmt) (some ts) :=
        fun a b => (ih a b (some fmt) (some ts) (htags' ts rfl)).1
      have hstep_ck : ∀ a b o,
          rename env fuel a b (some fmt) (some ts) = .ok o → o.checks = 0 :=
        fun a b o h => (ih a b (some fmt) (some ts) (htags' ts rfl)).2 o h
      by_cases hex : pathExists fs target = true
      · simp only [hex, Bool.not_true, Bool.false_eq_true, if_false]
        by_cases hd : isdir fs target = true
        · simp only [hd, if_true]
          constructor
          · -- independence
            by_cases hemp : ((listdir fs (ensureSep target)).filter
                (fun f => pyEndsWith (pyLower f) ".pdf")).isEmpty = true
            · simp only [hemp, if_true]
              simp only [hstep_eq]
            · simp only [hemp, Bool.false_eq_true, if_false]
              rw [foldFiles_congr _ _ (fun a b => hstep_eq a (ensureSep target ++ b)) fs]
              cases hff : foldFiles
                  (fun fs1 f => rename env fuel fs1 (ensureSep target ++ f)
                    (some fmt) (some ts)) fs
                  ((listdir fs (ensureSep target)).filter
                    (fun f => pyEndsWith (pyLower f) ".pdf")) with
              | error e => rfl
              | ok q =>
                obtain ⟨items, fs1, rs1, ck1⟩ := q
                dsimp only
                by_cases hrec2 : (!(scandirDirs fs (ensureSep target)).isEmpty &&
                    env.check_subfolders) = true
                · simp only [hrec2, if_true]
                  rw [foldSubs_congr _ _ hstep_eq fs1]
                · simp only [hrec2, Bool.false_eq_true, if_false]
          · -- checks = 0
            intro out hrun
            by_cases hemp : ((listdir fs (ensureSep target)).filter
                (fun f => pyEndsWith (pyLower f) ".pdf")).isEmpty = true
            · rw [hemp] at hrun
              simp only [if_true] at hrun
              cases hsubs : scandirDirs fs (ensureSep target) with
              | nil => rw [hsubs] at hrun; cases hrun
              | cons s1 srest =>
                rw [hsubs] at hrun
                cases hcs : env.check_subfolders with
                | false => rw [hcs] at hrun; cases hrun
                | true =>
                  rw [hcs] at hrun
                  dsimp only at hrun
                  cases hs1 : rename env fuel fs s1 (some fmt) (some ts) with
                  | error e => rw [hs1] at hrun; cases hrun
                  | ok o => rw [hs1] at hrun; cases hrun
            · rw [Bool.not_eq_true] at hemp
              rw [hemp] at hrun
              simp only [Bool.false_eq_true, if_false] at hrun
              cases hff : foldFiles
                  (fun fs1 f => rename env fuel fs1 (ensureSep target ++ f)
                    (some fmt) (some ts)) fs
                  ((listdir fs (ensureSep target)).filter
                    (fun f => pyEndsWith (pyLower f) ".pdf")) with
              | error e => rw [hff] at hrun; cases hrun
              | ok q =>
                obtain ⟨items, fs1, rs1, ck1⟩ := q
                rw [hff] at hrun
                have hck1 : ck1 = 0 :=
                  foldFiles_checks _ (fun a b o h => hstep_ck a _ o h) _ fs
                    items fs1 rs1 ck1 hff
                dsimp only at hrun
                by_cases hrec2 : (!(scandirDirs fs (ensureSep target)).isEmpty &&
                    env.check_subfolders) = true
                · rw [hrec2] at hrun
                  simp only [if_true] at hrun
                  cases hfs : foldSubs
                      (fun fs2 s => rename env fuel fs2 s (some fmt) (some ts)) fs1
                      (scandirDirs fs (ensureSep target)) with
                  | error e => rw [hfs] at hrun; cases hrun
                  | ok q2 =>
                    obtain ⟨items2, fs2, rs2, ck2⟩ := q2
                    rw [hfs] at hrun
                    have hck2 : ck2 = 0 :=
                      foldSubs_checks _ (fun a b o h => hstep_ck a b o h) _ fs1
                        items2 fs2 rs2 ck2 hfs
                    simp only [Except.ok.injEq] at hrun
                    subst hrun
                    simp [hck1, hck2]
                · rw [Bool.not_eq_true] at hrec2
                  rw [hrec2] at hrun
                  simp only [Bool.false_eq_true, if_false] at hrun
                  simp only [Except.ok.injEq] at hrun
                  subst hrun
                  simp [hck1]
        · rw [Bool.not_eq_true] at hd
          simp only [hd, Bool.false_eq_true, if_false]
          rw [processFile_env env { env with check_format_is_valid := g }
            rfl rfl rfl fs target fmt ts fuel]
          refine ⟨rfl, fun out hrun => ?_⟩
          cases hpf2 : processFile env fs target fmt ts fuel with
          | error e => rw [hpf2] at hrun; cases hrun
          | ok q =>
            obtain ⟨v, fs', rs⟩ := q
            rw [hpf2] at hrun
            simp only [Except.ok.injEq] at hrun
            subst hrun
            rfl
      · rw [Bool.not_eq_true] at hex
        simp only [hex, Bool.not_false, if_true]
        exact ⟨by trivial, fun out hrun => by
          simp only [Except.ok.injEq] at hrun
          subst hrun
          rfl⟩

/-- Witness for C10 at a concrete input: an environment whose checker
rejects every format still renames `r/a.pdf` when truthy tags are passed,
with zero check invocations, and is interchangeable with `envA`'s checker. -/
theorem format_check_skipped_with_tags_witness :
    rename { envA with check_format_is_valid := fun _ => Option.none } 6 fsE
        "r/a.pdf" (some "<invalid format>") (some ["t"]) =
      rename envA 6 fsE "r/a.pdf" (some "<invalid format>") (some ["t"]) ∧
    (∀ out, rename envA 6 fsE "r/a.pdf" (some "<invalid format>") (some ["t"]) =
      .ok out → out.checks = 0) :=
  format_check_skipped_with_tags envA (fun _ => Option.none) 6 fsE "r/a.pdf"
    (some "<invalid format>") (some ["t"]) (by decide)

/-! ## C8: string and path utilities -/

/-- `p` lies strictly inside the separator-terminated prefix `pre`. -/
def underSep (pre p : String) : Prop := ∃ t, pre.data ++ t = p.data

theorem isPre_iff (a b : List Char) : isPre a b = true ↔ ∃ t, a ++ t = b := by
  induction a generalizing b with
  | nil => simp [isPre]
  | cons c a ih =>
    cases b with
    | nil =>
      simp only [isPre, Bool.false_eq_true, false_iff]
      rintro ⟨t, ht⟩
      cases ht
    | cons d b =>
      simp only [isPre, Bool.and_eq_true, decide_eq_true_eq, ih]
      constructor
      · rintro ⟨rfl, t, rfl⟩
        exact ⟨t, rfl⟩
      · rintro ⟨t, ht⟩
        injection ht with h1 h2
        exact ⟨h1, t, h2⟩

theorem isSuf_iff (a b : List Char) : isSuf a b = true ↔ ∃ t, t ++ a = b := by
  rw [isSuf, isPre_iff]
  constructor
  · rintro ⟨t, ht⟩
    refine ⟨t.reverse, ?_⟩
    have := congrArg List.reverse ht
    simpa using this
  · rintro ⟨t, rfl⟩
    exact ⟨t.reverse, by simp⟩

theorem strData_append (s t : String) : (s ++ t).data = s.data ++ t.data := by
  cases s; cases t; rfl

theorem strExt {s t : String} (h : s.data = t.data) : s = t := by
  cases s; cases t; cases h; rfl

theorem strAppend_assoc (a b c : String) : a ++ b ++ c = a ++ (b ++ c) := by
  apply strExt
  simp [strData_append, List.append_assoc]

theorem pyEndsWith_iff (s t : String) :
    pyEndsWith s t = true ↔ ∃ u, u ++ t.data = s.data := by
  rw [pyEndsWith, isSuf_iff]

theorem pyEndsWith_append_of (pre s t : String) (h : pyEndsWith s t = true) :
    pyEndsWith (pre ++ s) t = true := by
  rw [pyEndsWith_iff] at h ⊢
  obtain ⟨u, hu⟩ := h
  exact ⟨pre.data ++ u, by rw [strData_append, ← hu, List.append_assoc]⟩

theorem pyLower_append (s t : String) :
    pyLower (s ++ t) = pyLower s ++ pyLower t := by
  apply strExt
  simp [pyLower, strData_append]

theorem contains_iff_mem {α : Type} [BEq α] [LawfulBEq α] {l : List α} {a : α} :
    l.contains a = true ↔ a ∈ l := List.elem_iff

theorem childName_eq_some {tSep p n : String} :
    childName tSep p = some n ↔
      p = tSep ++ n ∧ n ≠ "" ∧ SEP ∉ n.data := by
  rw [childName]
  constructor
  · intro h
    split at h
    · rename_i hpre
      rw [isPre_iff] at hpre
      obtain ⟨t, ht⟩ := hpre
      dsimp only at h
      have hdrop : p.data.drop tSep.data.length = t := by
        rw [← ht, List.drop_left]
      rw [hdrop] at h
      split at h
      · cases h
      · rename_i hcond
        simp only [Bool.or_eq_true, not_or, Bool.not_eq_true] at hcond
        obtain ⟨hne, hnc⟩ := hcond
        simp only [Option.some.injEq] at h
        subst h
        refine ⟨strExt ?_, ?_, ?_⟩
        · rw [strData_append, ← ht]
        · intro hh
          have ht2 : t = [] := congrArg String.data hh
          rw [ht2] at hne
          exact absurd hne (by decide)
        · intro hmem
          rw [← contains_iff_mem] at hmem
          rw [hmem] at hnc
          cases hnc
    · cases h
  · rintro ⟨rfl, hne, hnc⟩
    have hpre : isPre tSep.data (tSep ++ n).data = true := by
      rw [isPre_iff]
      exact ⟨n.data, (strData_append _ _).symm⟩
    rw [hpre]
    dsimp only
    simp only [if_true]
    have hdrop : (tSep ++ n).data.drop tSep.data.length = n.data := by
      rw [strData_append, List.drop_left]
    rw [hdrop]
    have h1 : n.data.isEmpty = false := by
      cases hd : n.data with
      | nil => exact absurd (strExt (by rw [hd])) hne
      | cons c l => rfl
    have h2 : n.data.contains SEP = false := by
      by_contra hh
      rw [Bool.not_eq_false, contains_iff_mem] at hh
      exact hnc hh
    rw [h1, h2]
    rfl

theorem childName_none_of_not_under {tSep p : String}
    (h : ¬ underSep tSep p) : childName tSep p = none := by
  cases hc : childName tSep p with
  | none => rfl
  | some n =>
    rw [childName_eq_some] at hc
    refine absurd ⟨n.data, ?_⟩ h
    rw [hc.1, strData_append]

theorem underSep_mono {a b p : String} (h1 : ∃ u, a.data ++ u = b.data)
    (h2 : underSep b p) : underSep a p := by
  obtain ⟨u, hu⟩ := h1
  obtain ⟨t, ht⟩ := h2
  exact ⟨u ++ t, by rw [← List.append_assoc, hu, ht]⟩

theorem ensureSep_data (t : String) : ∃ q, (ensureSep t).data = q ++ [SEP] := by
  rw [ensureSep]
  by_cases h : pyEndsWith t "/" = true
  · rw [h]
    simp only [if_true]
    rw [pyEndsWith_iff] at h
    obtain ⟨u, hu⟩ := h
    exact ⟨u, hu.symm⟩
  · rw [Bool.not_eq_true] at h
    rw [h]
    simp only [Bool.false_eq_true, if_false]
    exact ⟨t.data, strData_append t "/"⟩

theorem dropWhile_append_all {p : Char → Bool} (l1 l2 : List Char)
    (h : ∀ c ∈ l1, p c = true) :
    (l1 ++ l2).dropWhile p = l2.dropWhile p := by
  induction l1 with
  | nil => rfl
  | cons c l ih =>
    rw [List.cons_append, List.dropWhile_cons]
    rw [h c (by simp)]
    simp only [if_true]
    exact ih (fun c hc => h c (by simp [hc]))

/-- For a separator-terminated prefix `tSep` and a nonempty separator-free
name `f`, `str(Path(tSep + f).parent) + "/"` is `tSep` again. -/
theorem parent_child (tSep f : String) (hsep : ∃ q, tSep.data = q ++ [SEP])
    (_hf : f ≠ "") (hfree : SEP ∉ f.data) :
    parentStr (tSep ++ f) ++ "/" = tSep := by
  obtain ⟨q, hq⟩ := hsep
  have hdata : (tSep ++ f).data = q ++ [SEP] ++ f.data := by
    rw [strData_append, hq]
  have hcontains : (tSep ++ f).data.contains SEP = true := by
    rw [contains_iff_mem, hdata]
    simp
  have hpc : parentChars (tSep ++ f).data = q := by
    rw [parentChars, hdata]
    have h1 : (q ++ [SEP] ++ f.data).reverse = f.data.reverse ++ (SEP :: q.reverse) := by
      simp [List.reverse_append]
    rw [h1]
    rw [dropWhile_append_all f.data.reverse (SEP :: q.reverse) ?hall]
    case hall =>
      intro c hc
      simp only [List.mem_reverse] at hc
      simp only [ne_eq, decide_eq_true_eq]
      intro hh
      exact hfree (hh ▸ hc)
    rw [List.dropWhile_cons]
    have h2 : (decide ¬(SEP = SEP)) = false := by decide
    simp only [ne_eq, h2, Bool.false_eq_true, if_false, List.drop_succ_cons,
      List.drop_zero, List.reverse_cons]
    simp
  apply strExt
  rw [strData_append, parentStr, hcontains]
  simp only [if_true]
  show parentChars (tSep ++ f).data ++ [SEP] = tSep.data
  rw [hpc, hq]

theorem mem_baseChars_ne_sep (d : List Char) : ∀ c ∈ baseChars d, c ≠ SEP := by
  intro c hc
  rw [baseChars, List.mem_reverse] at hc
  have := List.mem_takeWhile_imp hc
  simpa using this

theorem extChars_cases (b : List Char) : extChars b = [] ∨
    extChars b = '.' :: (b.reverse.takeWhile (fun c => c ≠ '.')).reverse := by
  rw [extChars]
  split
  · exact Or.inl rfl
  · split
    · exact Or.inr rfl
    · exact Or.inl rfl

theorem mem_extChars (b : List Char) : ∀ c ∈ extChars b, c = '.' ∨ c ∈ b := by
  intro c hc
  rcases extChars_cases b with h | h
  · rw [h] at hc
    cases hc
  · rw [h, List.mem_cons] at hc
    rcases hc with hc | hc
    · exact Or.inl hc
    · right
      rw [List.mem_reverse] at hc
      have hmem : c ∈ b.reverse := List.takeWhile_subset _ hc
      rwa [List.mem_reverse] at hmem

theorem splitextExt_sepfree (p : String) : SEP ∉ (splitextExt p).data := by
  intro hmem
  rw [splitextExt] at hmem
  rcases mem_extChars _ _ hmem with h | h
  · cases h
  · exact mem_baseChars_ne_sep _ _ h rfl

theorem toLower_ne_sep (c : Char) (h : c ≠ SEP) : Char.toLower c ≠ SEP := by
  rw [Char.toLower]
  split
  · rename_i hrange
    obtain ⟨h1, h2⟩ := hrange
    interval_cases hn : c.toNat <;> decide
  · exact h

theorem pyLower_sepfree (s : String) (h : SEP ∉ s.data) :
    SEP ∉ (pyLower s).data := by
  rw [pyLower]
  intro hmem
  simp only [List.mem_map] at hmem
  obtain ⟨c, hc, hcl⟩ := hmem
  exact toLower_ne_sep c (fun hh => h (hh ▸ hc)) hcl

theorem digCh_ne_sep (n : Nat) : digCh n ≠ SEP := by
  rw [digCh]
  have hlt : n % 10 < 10 := Nat.mod_lt _ (by omega)
  set m := n % 10 with hm
  interval_cases m <;> decide

theorem natReprAux_sepfree (fuel : Nat) :
    ∀ n, SEP ∉ natReprAux fuel n := by
  induction fuel with
  | zero => intro n h; cases h
  | succ fuel ih =>
    intro n h
    rw [natReprAux] at h
    split at h
    · rw [List.mem_singleton] at h
      exact digCh_ne_sep n h.symm
    · rcases List.mem_append.mp h with h | h
      · exact ih _ h
      · rw [List.mem_singleton] at h
        exact digCh_ne_sep _ h.symm

theorem natRepr_sepfree (n : Nat) : SEP ∉ (natRepr n).data :=
  natReprAux_sepfree n n

/-- The decoration candidate `i` adds before the extension is separator-free. -/
theorem candidate_decomp (np ext : String) (i : Nat) :
    ∃ mid : String, candidate np ext i = np ++ (mid ++ ext) ∧ SEP ∉ mid.data := by
  rw [candidate]
  by_cases hi : i > 1
  · rw [if_pos hi]
    refine ⟨" (" ++ natRepr i ++ ")", by rw [strAppend_assoc], ?_⟩
    intro hmem
    rw [strData_append, strData_append] at hmem
    simp only [List.mem_append] at hmem
    rcases hmem with (h | h) | h
    · revert h; decide
    · exact natRepr_sepfree i h
    · revert h; decide
  · rw [if_neg hi]
    refine ⟨"", by rw [strAppend_assoc], ?_⟩
    intro hmem
    cases hmem

/-! ## C8: filesystem frame lemmas -/

/-- Well-formedness of a snapshot: no duplicate paths, no path that is both
a file and a directory, and no directory whose name ends in `.pdf` (such a
directory would be picked up by the pdf filter and recursed into from the
file loop, nesting the output). -/
structure WFfs (fs : FS) : Prop where
  filesNodup : fs.files.Nodup
  dirsNodup : fs.dirs.Nodup
  disj : ∀ p ∈ fs.files, p ∉ fs.dirs
  noPdfDir : ∀ d ∈ fs.dirs, pyEndsWith (pyLower d) ".pdf" = false

/-- The filename builder produces a nonempty, separator-free string
(the spec's "filesystem-safe string (no path separators)"). -/
def BuilderGood (env : Env) : Prop :=
  ∀ m f t, SEP ∉ (env.build_filename m f t).data ∧ env.build_filename m f t ≠ ""

/-- Replay a list of renames on a snapshot. -/
def applyRenames (fs : FS) (rs : List (String × String)) : FS :=
  rs.foldl (fun a q => applyRename a q.1 q.2) fs

theorem applyRenames_cons (fs : FS) (q : String × String) (rs : List (String × String)) :
    applyRenames fs (q :: rs) = applyRenames (applyRename fs q.1 q.2) rs := rfl

theorem applyRenames_append (fs : FS) (rs1 rs2 : List (String × String)) :
    applyRenames fs (rs1 ++ rs2) = applyRenames (applyRenames fs rs1) rs2 := by
  rw [applyRenames, applyRenames, applyRenames, List.foldl_append]

theorem applyRenames_dirs (fs : FS) (rs : List (String × String)) :
    (applyRenames fs rs).dirs = fs.dirs := by
  induction rs generalizing fs with
  | nil => rfl
  | cons q rs ih => rw [applyRenames_cons, ih]; rfl

theorem pathExists_false_iff {fs : FS} {p : String} :
    pathExists fs p = false ↔ p ∉ fs.files ∧ p ∉ fs.dirs := by
  rw [pathExists, Bool.or_eq_false_iff]
  constructor
  · rintro ⟨h1, h2⟩
    constructor
    · intro hm; rw [← contains_iff_mem (l := fs.files)] at hm; rw [hm] at h1; cases h1
    · intro hm; rw [← contains_iff_mem (l := fs.dirs)] at hm; rw [hm] at h2; cases h2
  · rintro ⟨h1, h2⟩
    constructor
    · by_contra hh
      rw [Bool.not_eq_false, contains_iff_mem] at hh
      exact h1 hh
    · by_contra hh
      rw [Bool.not_eq_false, contains_iff_mem] at hh
      exact h2 hh

theorem pathExists_true_iff {fs : FS} {p : String} :
    pathExists fs p = true ↔ p ∈ fs.files ∨ p ∈ fs.dirs := by
  rw [pathExists, Bool.or_eq_true]
  rw [contains_iff_mem, contains_iff_mem]

theorem isdir_iff {fs : FS} {p : String} :
    isdir fs p = true ↔ p ∈ fs.dirs := by
  rw [isdir, contains_iff_mem]

theorem mem_files_applyRename {fs : FS} {p o n : String}
    (h : p ∈ fs.files) (hne : p ≠ o) : p ∈ (applyRename fs o n).files := by
  rw [applyRename]
  exact List.mem_map.mpr ⟨p, h, by rw [if_neg hne]⟩

theorem mem_files_applyRenames {fs : FS} {p : String}
    {rs : List (String × String)}
    (h : p ∈ fs.files) (hne : ∀ q ∈ rs, p ≠ q.1) :
    p ∈ (applyRenames fs rs).files := by
  induction rs generalizing fs with
  | nil => exact h
  | cons q rs ih =>
    rw [applyRenames_cons]
    exact ih (mem_files_applyRename h (hne q (by simp)))
      (fun q' hq' => hne q' (by simp [hq']))

theorem listdir_applyRename {fs : FS} {dSep o n : String}
    (h1 : childName dSep o = none) (h2 : childName dSep n = none) :
    listdir (applyRename fs o n) dSep = listdir fs dSep := by
  rw [listdir, listdir, applyRename]
  congr 1
  rw [List.filterMap_map]
  apply List.filterMap_congr
  intro p _
  simp only [Function.comp]
  by_cases hp : p = o
  · rw [if_pos hp, h2, hp, h1]
  · rw [if_neg hp]

theorem listdir_applyRenames {fs : FS} {dSep : String}
    {rs : List (String × String)}
    (h : ∀ q ∈ rs, childName dSep q.1 = none ∧ childName dSep q.2 = none) :
    listdir (applyRenames fs rs) dSep = listdir fs dSep := by
  induction rs generalizing fs with
  | nil => rfl
  | cons q rs ih =>
    rw [applyRenames_cons, ih (fun q' hq' => h q' (by simp [hq']))]
    exact listdir_applyRename (h q (by simp)).1 (h q (by simp)).2

theorem scandirDirs_applyRenames (fs : FS) (tSep : String)
    (rs : List (String × String)) :
    scandirDirs (applyRenames fs rs) tSep = scandirDirs fs tSep := by
  rw [scandirDirs, scandirDirs, applyRenames_dirs]

theorem isdir_applyRenames (fs : FS) (p : String) (rs : List (String × String)) :
    isdir (applyRenames fs rs) p = isdir fs p := by
  rw [isdir, isdir, applyRenames_dirs]

theorem WFfs_applyRename {fs : FS} {o n : String} (hwf : WFfs fs)
    (hfresh : pathExists fs n = false) : WFfs (applyRename fs o n) := by
  obtain ⟨hnf, hnd⟩ := pathExists_false_iff.mp hfresh
  refine ⟨?_, hwf.dirsNodup, ?_, hwf.noPdfDir⟩
  · rw [applyRename]
    apply List.Nodup.map_on ?_ hwf.filesNodup
    intro x hx y hy hxy
    by_cases hxo : x = o
    · by_cases hyo : y = o
      · rw [hxo, hyo]
      · rw [if_pos hxo, if_neg hyo] at hxy
        exact absurd (hxy ▸ hy) hnf
    · by_cases hyo : y = o
      · rw [if_neg hxo, if_pos hyo] at hxy
        exact absurd (hxy.symm ▸ hx) hnf
      · rw [if_neg hxo, if_neg hyo] at hxy
        exact hxy
  · intro p hp
    rw [applyRename] at hp
    obtain ⟨x, hx, hsub⟩ := List.mem_map.mp hp
    by_cases hxo : x = o
    · rw [if_pos hxo] at hsub
      exact hsub ▸ hnd
    · rw [if_neg hxo] at hsub
      exact hsub ▸ hwf.disj x hx

/-- Every prefix `tSep` reaches under the separator-terminated form of its
extension `tSep ++ m`. -/
theorem ensureSep_extends (tSep m : String) :
    ∃ u, tSep.data ++ u = (ensureSep (tSep ++ m)).data := by
  rw [ensureSep]
  split
  · exact ⟨m.data, (strData_append _ _).symm⟩
  · refine ⟨m.data ++ "/".data, ?_⟩
    rw [strData_append, strData_append, List.append_assoc]

theorem flatMap_congr {α β : Type} {f g : α → List β} (l : List α)
    (h : ∀ a ∈ l, f a = g a) : l.flatMap f = l.flatMap g := by
  induction l with
  | nil => rfl
  | cons a l ih =>
    rw [List.flatMap_cons, List.flatMap_cons, h a (by simp),
      ih (fun a' ha' => h a' (by simp [ha']))]

/-- The expected enumeration of a subtree is unchanged by renames whose
source and target both live outside that subtree. -/
theorem walkSpec_applyRenames (cs : Bool) :
    ∀ fuel (s : String) (fs : FS) (rs : List (String × String)),
      (∀ q ∈ rs, ¬ underSep (ensureSep s) q.1 ∧ ¬ underSep (ensureSep s) q.2) →
      walkSpec cs (applyRenames fs rs) fuel s = walkSpec cs fs fuel s := by
  intro fuel
  induction fuel with
  | zero => intro s fs rs _; rfl
  | succ fuel ih =>
    intro s fs rs h
    rw [walkSpec, walkSpec]
    have hld : listdir (applyRenames fs rs) (ensureSep s) = listdir fs (ensureSep s) :=
      listdir_applyRenames (fun q hq =>
        ⟨childName_none_of_not_under (h q hq).1,
         childName_none_of_not_under (h q hq).2⟩)
    rw [hld, scandirDirs_applyRenames]
    congr 1
    split
    · apply flatMap_congr
      intro s' hs'
      obtain ⟨m, hm⟩ : ∃ m, s' = ensureSep s ++ m := by
        rw [scandirDirs] at hs'
        obtain ⟨nm, _, hnm⟩ := List.mem_map.mp hs'
        exact ⟨nm, hnm.symm⟩
      apply ih
      intro q hq
      have hext : ∃ u, (ensureSep s).data ++ u = (ensureSep s').data := by
        rw [hm]
        exact ensureSep_extends _ _
      exact ⟨fun hu => (h q hq).1 (underSep_mono hext hu),
             fun hu => (h q hq).2 (underSep_mono hext hu)⟩
    · rfl

/-! ## C8: listing lemmas -/

theorem truthyTags_of_ne {ts : List String} (h : ts ≠ []) :
    truthyTags (some ts) = true := by
  cases ts with
  | nil => exact absurd rfl h
  | cons a l => rfl

theorem mem_listdir {fs : FS} {tSep f : String} (h : f ∈ listdir fs tSep) :
    (tSep ++ f ∈ fs.files ∨ tSep ++ f ∈ fs.dirs) ∧ f ≠ "" ∧ SEP ∉ f.data := by
  rw [listdir] at h
  rcases List.mem_append.mp h with h | h
  · obtain ⟨p, hp, hc⟩ := List.mem_filterMap.mp h
    rw [childName_eq_some] at hc
    exact ⟨Or.inl (hc.1 ▸ hp), hc.2⟩
  · obtain ⟨p, hp, hc⟩ := List.mem_filterMap.mp h
    rw [childName_eq_some] at hc
    exact ⟨Or.inr (hc.1 ▸ hp), hc.2⟩

theorem childName_inj {tSep : String} :
    ∀ (a a' : String) (b : String), childName tSep a = some b →
      childName tSep a' = some b → a = a' := by
  intro a a' b h1 h2
  rw [childName_eq_some] at h1 h2
  rw [h1.1, h2.1]

theorem listdir_nodup {fs : FS} (hwf : WFfs fs) (tSep : String) :
    (listdir fs tSep).Nodup := by
  rw [listdir, List.nodup_append]
  refine ⟨List.Nodup.filterMap childName_inj hwf.filesNodup,
          List.Nodup.filterMap childName_inj hwf.dirsNodup, ?_⟩
  intro f hf1 hf2
  obtain ⟨p, hp, hc⟩ := List.mem_filterMap.mp hf1
  obtain ⟨d, hd, hc'⟩ := List.mem_filterMap.mp hf2
  rw [childName_eq_some] at hc hc'
  have hpd : p = d := by rw [hc.1, hc'.1]
  exact hwf.disj p hp (hpd ▸ hd)

theorem pdf_child_in_files {fs : FS} {tSep f : String} (hwf : WFfs fs)
    (hmem : f ∈ listdir fs tSep)
    (hpdf : pyEndsWith (pyLower f) ".pdf" = true) : tSep ++ f ∈ fs.files := by
  rcases (mem_listdir hmem).1 with h | h
  · exact h
  · exfalso
    have := hwf.noPdfDir _ h
    rw [pyLower_append] at this
    rw [pyEndsWith_append_of (pyLower tSep) (pyLower f) ".pdf" hpdf] at this
    cases this

theorem mem_scandirDirs_decomp {fs : FS} {tSep s : String}
    (h : s ∈ scandirDirs fs tSep) :
    ∃ m, s = tSep ++ m ∧ m ≠ "" ∧ SEP ∉ m.data ∧ tSep ++ m ∈ fs.dirs := by
  rw [scandirDirs] at h
  obtain ⟨m, hm, rfl⟩ := List.mem_map.mp h
  obtain ⟨d, hd, hc⟩ := List.mem_filterMap.mp hm
  rw [childName_eq_some] at hc
  exact ⟨m, rfl, hc.2.1, hc.2.2, hc.1 ▸ hd⟩

theorem strAppend_left_cancel {a b c : String} (h : a ++ b = a ++ c) : b = c := by
  have hd := congrArg String.data h
  rw [strData_append, strData_append] at hd
  exact strExt (List.append_cancel_left hd)

theorem scandirDirs_nodup {fs : FS} (hwf : WFfs fs) (tSep : String) :
    (scandirDirs fs tSep).Nodup := by
  rw [scandirDirs]
  apply List.Nodup.map
  · intro a b hab
    exact strAppend_left_cancel hab
  · exact List.Nodup.filterMap childName_inj hwf.dirsNodup

/-! ## C8: shape of the single-file branch -/

/-- Inversion of a successful `processFile` run on an existing `.pdf`
target: the resolver succeeded, the returned value is the updated resolver
dictionary, and either nothing was renamed (unchanged snapshot) or exactly
the target was renamed to a fresh candidate path recorded in `path_new`. -/
theorem processFile_shape (env : Env) (fs : FS) (filename fmt : String)
    (tags : List String) (rfFuel : Nat) (v : PyVal) (fs' : FS)
    (rs : List (String × String))
    (hex : pathExists fs filename = true)
    (hpdf : pyEndsWith (pyLower filename) ".pdf" = true)
    (h : processFile env fs filename fmt tags rfFuel = .ok (v, fs', rs)) :
    ∃ (r : BibResult) (pnew : Option String),
      env.pdf2bib filename = .ok r ∧
      v = .dict (mkResult r filename pnew) ∧
      (rs = [] ∧ fs' = fs ∨
       ∃ p, pnew = some p ∧ rs = [(filename, p)] ∧
         fs' = applyRename fs filename p ∧
         pathExists fs p = false ∧
         ∃ j, 1 ≤ j ∧ p = candidate
           (parentStr filename ++ "/" ++
             env.build_filename (r.metadata.getD []) fmt tags)
           (pyLower (splitextExt filename)) j) := by
  rw [processFile] at h
  rw [hex] at h
  simp only [Bool.not_true, Bool.false_eq_true, if_false] at h
  rw [hpdf] at h
  simp only [Bool.not_true, Bool.false_eq_true, if_false] at h
  cases hres : env.pdf2bib filename with
  | error e => rw [hres] at h; cases h
  | ok r =>
    rw [hres] at h
    dsimp only at h
    refine ⟨r, ?_⟩
    split at h
    · split at h
      · simp only [Except.ok.injEq, Prod.mk.injEq] at h
        obtain ⟨hv, hfs, hrs⟩ := h
        exact ⟨_, rfl, hv.symm, Or.inl ⟨hrs.symm, hfs.symm⟩⟩
      · rename_i hne
        cases hrf : rename_file env fs filename
            (parentStr filename ++ "/" ++
              env.build_filename (r.metadata.getD []) fmt tags)
            (pyLower (splitextExt filename)) rfFuel with
        | ok ptr =>
          obtain ⟨p, fsp, rsp⟩ := ptr
          rw [hrf] at h
          dsimp only at h
          simp only [Except.ok.injEq, Prod.mk.injEq] at h
          obtain ⟨hv, hfs, hrs⟩ := h
          obtain ⟨_, hrs1, hfs1, hfresh, j, hj, hp⟩ :=
            rename_file_frame env fs filename _ _ rfFuel p fsp rsp hrf
          refine ⟨some p, rfl, hv.symm, Or.inr ⟨p, rfl, ?_, ?_, hfresh, j, hj, hp⟩⟩
          · rw [← hrs, hrs1]
          · rw [← hfs, hfs1]
        | error e =>
          rw [hrf] at h
          dsimp only at h
          cases hcat : catchable e with
          | true =>
            rw [if_pos hcat] at h
            simp only [Except.ok.injEq, Prod.mk.injEq] at h
            obtain ⟨hv, hfs, hrs⟩ := h
            exact ⟨_, rfl, hv.symm, Or.inl ⟨hrs.symm, hfs.symm⟩⟩
          | false =>
            rw [if_neg (fun hh => by rw [hcat] at hh; cases hh)] at h
            cases h
    · simp only [Except.ok.injEq, Prod.mk.injEq] at h
      obtain ⟨hv, hfs, hrs⟩ := h
      exact ⟨_, rfl, hv.symm, Or.inl ⟨hrs.symm, hfs.symm⟩⟩

/-- A string built from a nonempty head is nonempty. -/
theorem strAppend_ne_empty_left {a b : String} (h : a ≠ "") : a ++ b ≠ "" := by
  intro hh
  have := congrArg String.data hh
  rw [strData_append] at this
  rcases List.append_eq_nil.mp this with ⟨h1, _⟩
  exact h (strExt (by rw [h1]))

/-! ## C8: the per-file step inside a directory walk -/

/-- Behavior of a `rename` call on a direct `.pdf` child `tSep ++ f` of the
directory being walked: on success the result is a dictionary whose
`path_original` is the file's path, the filesystem is the replay of the
recorded renames, well-formedness and the directory list are preserved, and
every recorded rename moves exactly this file to another direct child of the
same directory. -/
theorem file_step_spec (env : Env) (hb : BuilderGood env) (fuel : Nat)
    (fs : FS) (tSep f fmt : String) (ts : List String) (out : Outcome)
    (hsep : ∃ q, tSep.data = q ++ [SEP])
    (hf : f ≠ "") (hffree : SEP ∉ f.data)
    (hpdf : pyEndsWith (pyLower f) ".pdf" = true)
    (hmem : tSep ++ f ∈ fs.files)
    (hwf : WFfs fs)
    (hts : ts ≠ [])
    (hrun : rename env fuel fs (tSep ++ f) (some fmt) (some ts) = .ok out) :
    (∃ pr : ProcessResult, out.val = .dict pr ∧ pr.path_original = tSep ++ f) ∧
    out.fs = applyRenames fs out.renames ∧
    WFfs out.fs ∧
    out.fs.dirs = fs.dirs ∧
    (∀ q ∈ out.renames, q.1 = tSep ++ f ∧
      ∃ n2, q.2 = tSep ++ n2 ∧ n2 ≠ "" ∧ SEP ∉ n2.data) := by
  have hex : pathExists fs (tSep ++ f) = true :=
    pathExists_true_iff.mpr (Or.inl hmem)
  have hnd : isdir fs (tSep ++ f) = false := by
    by_contra hh
    rw [Bool.not_eq_false, isdir_iff] at hh
    exact hwf.disj _ hmem hh
  have hpdfFull : pyEndsWith (pyLower (tSep ++ f)) ".pdf" = true := by
    rw [pyLower_append]
    exact pyEndsWith_append_of _ _ _ hpdf
  have htags : effectiveTags env (some fmt) (some ts) = some ts :=
    effectiveTags_truthy env (some fmt) (some ts) (truthyTags_of_ne hts)
  cases fuel with
  | zero => cases hrun
  | succ fuel' =>
    rw [rename_nondir env fuel' fs (tSep ++ f) (some fmt) (some ts) ts htags hnd]
      at hrun
    cases hpf : processFile env fs (tSep ++ f) (resolveFormat env (some fmt))
        ts fuel' with
    | error e => rw [hpf] at hrun; cases hrun
    | ok q =>
      obtain ⟨v, fs', rs⟩ := q
      rw [hpf] at hrun
      simp only [Except.ok.injEq] at hrun
      subst hrun
      obtain ⟨r, pnew, _, hv, hcase⟩ :=
        processFile_shape env fs (tSep ++ f) (resolveFormat env (some fmt))
          ts fuel' v fs' rs hex hpdfFull hpf
      rcases hcase with ⟨hrs, hfs⟩ | ⟨p, hpnew, hrs, hfs, hfresh, j, hj, hp⟩
      · subst hrs hfs
        exact ⟨⟨mkResult r (tSep ++ f) pnew, hv, rfl⟩, rfl,
          hwf, rfl, fun q hq => absurd hq (by simp)⟩
      · subst hrs hfs
        refine ⟨⟨mkResult r (tSep ++ f) pnew, hv, rfl⟩, rfl,
          WFfs_applyRename hwf hfresh, rfl, ?_⟩
        intro q hq
        rw [List.mem_singleton] at hq
        subst hq
        refine ⟨rfl, ?_⟩
        obtain ⟨mid, hmid, hmidfree⟩ := candidate_decomp
          (parentStr (tSep ++ f) ++ "/" ++
            env.build_filename (r.metadata.getD []) (resolveFormat env (some fmt)) ts)
          (pyLower (splitextExt (tSep ++ f))) j
        rw [hp, hmid]
        have hpc : parentStr (tSep ++ f) ++ "/" = tSep :=
          parent_child tSep f hsep hf hffree
        refine ⟨env.build_filename (r.metadata.getD [])
            (resolveFormat env (some fmt)) ts ++
            (mid ++ pyLower (splitextExt (tSep ++ f))), ?_, ?_, ?_⟩
        · show (parentStr (tSep ++ f) ++ "/" ++
              env.build_filename (r.metadata.getD []) (resolveFormat env (some fmt)) ts) ++
              (mid ++ pyLower (splitextExt (tSep ++ f))) = _
          rw [hpc]
          exact strAppend_assoc _ _ _
        · exact strAppend_ne_empty_left
            (hb (r.metadata.getD []) (resolveFormat env (some fmt)) ts).2
        · intro hh
          rw [strData_append, strData_append] at hh
          rcases List.mem_append.mp hh with hh | hh
          · exact (hb (r.metadata.getD []) (resolveFormat env (some fmt)) ts).1 hh
          · rcases List.mem_append.mp hh with hh | hh
            · exact hmidfree hh
            · exact pyLower_sepfree _ (splitextExt_sepfree _) hh

/-! ## C8: subtree disjointness -/

theorem ensureSep_child (tSep m : String) (hm : m ≠ "") (hfree : SEP ∉ m.data) :
    (ensureSep (tSep ++ m)).data = tSep.data ++ m.data ++ [SEP] := by
  rw [ensureSep]
  have hnotend : pyEndsWith (tSep ++ m) "/" = false := by
    by_contra hh
    rw [Bool.not_eq_false, pyEndsWith_iff] at hh
    obtain ⟨u, hu⟩ := hh
    rw [strData_append] at hu
    have hrev := congrArg List.reverse hu
    rw [List.reverse_append, List.reverse_append] at hrev
    cases hmd : m.data with
    | nil => exact hm (strExt (by rw [hmd]))
    | cons c cs =>
      rw [hmd] at hrev
      simp only [List.reverse_cons] at hrev
      have hor : some SEP = cs.getLast?.or (some c) := by
        have := congrArg (fun l => l.head?) hrev
        simpa using this
      refine hfree ?_
      rw [hmd]
      cases hlast : cs.getLast? with
      | none =>
        rw [hlast, Option.none_or, Option.some.injEq] at hor
        rw [hor]
        exact List.mem_cons_self c cs
      | some d =>
        rw [hlast, Option.or_some, Option.some.injEq] at hor
        rw [hor]
        exact List.mem_cons_of_mem c (List.mem_of_getLast?_eq_some hlast)
  rw [hnotend]
  simp only [Bool.false_eq_true, if_false]
  rw [strData_append, strData_append]
  rfl

theorem sepfree_sep_append_inj {a b u v : List Char}
    (ha : SEP ∉ a) (hb : SEP ∉ b)
    (h : a ++ SEP :: u = b ++ SEP :: v) : a = b := by
  induction a generalizing b with
  | nil =>
    cases b with
    | nil => rfl
    | cons c bs =>
      rw [List.nil_append] at h
      injection h with h1 _
      exact absurd (h1 ▸ List.mem_cons_self c bs) hb
  | cons c as ih =>
    cases b with
    | nil =>
      rw [List.nil_append] at h
      injection h with h1 _
      exact absurd (h1.symm ▸ List.mem_cons_self c as) ha
    | cons d bs =>
      injection h with h1 h2
      rw [h1, ih (fun hh => ha (List.mem_cons_of_mem c hh))
        (fun hh => hb (List.mem_cons_of_mem d hh)) h2]

/-- A direct child of `tSep` never lies inside the subtree of a
subdirectory `tSep ++ m`. -/
theorem child_not_under_subtree {tSep m nn p : String}
    (hp : p = tSep ++ nn) (hnn : SEP ∉ nn.data)
    (hm : m ≠ "") (hmf : SEP ∉ m.data) :
    ¬ underSep (ensureSep (tSep ++ m)) p := by
  rintro ⟨u, hu⟩
  rw [ensureSep_child tSep m hm hmf, hp, strData_append] at hu
  rw [List.append_assoc, List.append_assoc] at hu
  have h2 := List.append_cancel_left hu
  rw [← List.append_assoc] at h2
  have : SEP ∈ nn.data := by
    rw [← h2]
    simp
  exact hnn this

/-- Subtrees of distinct subdirectory names are disjoint. -/
theorem subtree_disjoint {tSep m m' p : String}
    (hm : m ≠ "") (hmf : SEP ∉ m.data)
    (hm' : m' ≠ "") (hmf' : SEP ∉ m'.data)
    (hne : m ≠ m')
    (h : underSep (ensureSep (tSep ++ m)) p) :
    ¬ underSep (ensureSep (tSep ++ m')) p := by
  rintro ⟨u', hu'⟩
  obtain ⟨u, hu⟩ := h
  rw [ensureSep_child tSep m hm hmf] at hu
  rw [ensureSep_child tSep m' hm' hmf'] at hu'
  rw [← hu'] at hu
  rw [List.append_assoc, List.append_assoc, List.append_assoc, List.append_assoc] at hu
  have h2 := List.append_cancel_left hu
  rw [← List.append_assoc, ← List.append_assoc] at h2
  have h3 : m.data ++ SEP :: u = m'.data ++ SEP :: u' := by
    simpa using h2
  exact hne (strExt (sepfree_sep_append_inj hmf hmf' h3))

/-! ## C8: the files loop -/

/-- Processing the direct `.pdf` children of a directory in listing order:
the results are dictionaries carrying the files' paths in that order, the
filesystem evolves exactly by the recorded renames, and every rename moves
a direct child of the directory to another direct child. -/
theorem foldFiles_spec (env : Env) (hb : BuilderGood env) (fuel : Nat)
    (tSep fmt : String) (ts : List String)
    (hsep : ∃ q, tSep.data = q ++ [SEP]) (hts : ts ≠ []) :
    ∀ (names : List String) (fs : FS) (items : List PyVal) (fs2 : FS)
      (rsF : List (String × String)) (ck : Nat),
      names.Nodup →
      (∀ f ∈ names, f ≠ "" ∧ SEP ∉ f.data ∧
        pyEndsWith (pyLower f) ".pdf" = true ∧ tSep ++ f ∈ fs.files) →
      WFfs fs →
      foldFiles (fun fs1 f => rename env fuel fs1 (tSep ++ f) (some fmt) (some ts))
        fs names = .ok (items, fs2, rsF, ck) →
      items.map valPathOrig = names.map (fun f => some (tSep ++ f)) ∧
      fs2 = applyRenames fs rsF ∧
      WFfs fs2 ∧ fs2.dirs = fs.dirs ∧
      (∀ q ∈ rsF,
        (∃ n1, q.1 = tSep ++ n1 ∧ n1 ≠ "" ∧ SEP ∉ n1.data) ∧
        (∃ n2, q.2 = tSep ++ n2 ∧ n2 ≠ "" ∧ SEP ∉ n2.data)) := by
  intro names
  induction names with
  | nil =>
    intro fs items fs2 rsF ck _ _ hwf h
    rw [foldFiles] at h
    simp only [Except.ok.injEq, Prod.mk.injEq] at h
    obtain ⟨h1, h2, h3, _⟩ := h
    subst h1 h2 h3
    exact ⟨rfl, rfl, hwf, rfl, fun q hq => absurd hq (by simp)⟩
  | cons f rest ih =>
    intro fs items fs2 rsF ck hnodup hprops hwf h
    rw [foldFiles] at h
    cases hstep : rename env fuel fs (tSep ++ f) (some fmt) (some ts) with
    | error e => rw [hstep] at h; cases h
    | ok o =>
      rw [hstep] at h
      dsimp only at h
      cases hrec : foldFiles
          (fun fs1 f => rename env fuel fs1 (tSep ++ f) (some fmt) (some ts))
          o.fs rest with
      | error e => rw [hrec] at h; cases h
      | ok q4 =>
        obtain ⟨items', fs2', rs', ck'⟩ := q4
        rw [hrec] at h
        simp only [Except.ok.injEq, Prod.mk.injEq] at h
        obtain ⟨h1, h2, h3, _⟩ := h
        subst h1 h2 h3
        obtain ⟨hf, hffree, hfpdf, hfmem⟩ := hprops f (by simp)
        obtain ⟨⟨pr, hval, hpo⟩, hofs, hwf', hdirs', hframe⟩ :=
          file_step_spec env hb fuel fs tSep f fmt ts o hsep hf hffree hfpdf
            hfmem hwf hts hstep
        have hnotin : f ∉ rest := (List.nodup_cons.mp hnodup).1
        have hrestprops : ∀ f' ∈ rest, f' ≠ "" ∧ SEP ∉ f'.data ∧
            pyEndsWith (pyLower f') ".pdf" = true ∧ tSep ++ f' ∈ o.fs.files := by
          intro f' hf'
          obtain ⟨hp1, hp2, hp3, hp4⟩ := hprops f' (by simp [hf'])
          refine ⟨hp1, hp2, hp3, ?_⟩
          rw [hofs]
          apply mem_files_applyRenames hp4
          intro q hq
          rw [(hframe q hq).1]
          intro hh
          have : f' = f := strAppend_left_cancel hh
          exact hnotin (this ▸ hf')
        obtain ⟨ihmap, ihfs, ihwf, ihdirs, ihframe⟩ :=
          ih o.fs items' fs2' rs' ck' (List.nodup_cons.mp hnodup).2
            hrestprops hwf' hrec
        refine ⟨?_, ?_, ihwf, ?_, ?_⟩
        · rw [List.map_cons, List.map_cons, ihmap, hval]
          rw [valPathOrig, hpo]
        · rw [ihfs, hofs, ← applyRenames_append]
        · rw [ihdirs, hdirs']
        · intro q hq
          rcases List.mem_append.mp hq with hq | hq
          · obtain ⟨hq1, hq2⟩ := hframe q hq
            exact ⟨⟨f, hq1, hf, hffree⟩, hq2⟩
          · exact ihframe q hq

/-! ## C8: the subfolder loop -/

/-- Walking the subdirectories of a directory in listing order, starting
from the state left by the files loop: the flattened results enumerate each
subtree (computed on the snapshot `fs0` taken at entry to the parent, since
all earlier renames stay outside each subtree being entered), the
filesystem evolves by the recorded renames, and every rename stays inside
the subtree of one of the subdirectories.  The `hstep` hypothesis is the
induction hypothesis of the main walk theorem one fuel level down. -/
theorem foldSubs_spec (env : Env) (fuel : Nat) (fmt : String)
    (ts : List String) (tSep : String) (fs0 : FS)
    (hstep : ∀ (fs1 : FS) (s : String) (out : Outcome) (rs : List PyVal),
      WFfs fs1 →
      rename env fuel fs1 s (some fmt) (some ts) = .ok out →
      out.val = .list rs →
      rs.map valPathOrig = (walkSpec env.check_subfolders fs1 fuel s).map some ∧
      out.fs = applyRenames fs1 out.renames ∧ WFfs out.fs ∧
      out.fs.dirs = fs1.dirs ∧
      (∀ q ∈ out.renames,
        underSep (ensureSep s) q.1 ∧ underSep (ensureSep s) q.2)) :
    ∀ (subs : List String) (fs1 : FS) (acc : List (String × String))
      (items2 : List PyVal) (fs3 : FS) (rs2 : List (String × String)) (ck2 : Nat),
      (∀ s ∈ subs, ∃ m, s = tSep ++ m ∧ m ≠ "" ∧ SEP ∉ m.data) →
      subs.Nodup →
      fs1 = applyRenames fs0 acc →
      (∀ q ∈ acc, ∀ s ∈ subs,
        ¬ underSep (ensureSep s) q.1 ∧ ¬ underSep (ensureSep s) q.2) →
      WFfs fs1 →
      foldSubs (fun fs2 s => rename env fuel fs2 s (some fmt) (some ts))
        fs1 subs = .ok (items2, fs3, rs2, ck2) →
      items2.map valPathOrig =
        (subs.flatMap (walkSpec env.check_subfolders fs0 fuel)).map some ∧
      fs3 = applyRenames fs1 rs2 ∧ WFfs fs3 ∧ fs3.dirs = fs1.dirs ∧
      (∀ q ∈ rs2, ∃ s ∈ subs,
        underSep (ensureSep s) q.1 ∧ underSep (ensureSep s) q.2) := by
  intro subs
  induction subs with
  | nil =>
    intro fs1 acc items2 fs3 rs2 ck2 _ _ _ _ hwf h
    rw [foldSubs] at h
    simp only [Except.ok.injEq, Prod.mk.injEq] at h
    obtain ⟨h1, h2, h3, _⟩ := h
    subst h1 h2 h3
    exact ⟨rfl, rfl, hwf, rfl, fun q hq => absurd hq (by simp)⟩
  | cons s srest ih =>
    intro fs1 acc items2 fs3 rs2 ck2 hsubs hnodup hfs1 hacc hwf h
    rw [foldSubs] at h
    cases hstep1 : rename env fuel fs1 s (some fmt) (some ts) with
    | error e => rw [hstep1] at h; cases h
    | ok o =>
      rw [hstep1] at h
      dsimp only at h
      cases hov : o.val with
      | none => rw [hov] at h; cases h
      | dict pr => rw [hov] at h; cases h
      | list vs =>
        rw [hov] at h
        cases hrec : foldSubs
            (fun fs2 s => rename env fuel fs2 s (some fmt) (some ts))
            o.fs srest with
        | error e => rw [hrec] at h; cases h
        | ok q4 =>
          obtain ⟨items', fs3', rs', ck'⟩ := q4
          rw [hrec] at h
          simp only [Except.ok.injEq, Prod.mk.injEq] at h
          obtain ⟨h1, h2, h3, _⟩ := h
          subst h1 h2 h3
          obtain ⟨m, hsm, hm, hmf⟩ := hsubs s (by simp)
          obtain ⟨hmap1, hofs, hwf', hdirs', hframe1⟩ :=
            hstep fs1 s o vs hwf hstep1 hov
          -- convert the subtree enumeration to the entry snapshot fs0
          have hinv : walkSpec env.check_subfolders fs1 fuel s =
              walkSpec env.check_subfolders fs0 fuel s := by
            rw [hfs1]
            exact walkSpec_applyRenames env.check_subfolders fuel s fs0 acc
              (fun q hq => hacc q hq s (by simp))
          -- the recursive fold starts from fs0 plus (acc ++ o.renames)
          have hofs0 : o.fs = applyRenames fs0 (acc ++ o.renames) := by
            rw [applyRenames_append, ← hfs1, hofs]
          have haccrest : ∀ q ∈ acc ++ o.renames, ∀ s' ∈ srest,
              ¬ underSep (ensureSep s') q.1 ∧ ¬ underSep (ensureSep s') q.2 := by
            intro q hq s' hs'
            rcases List.mem_append.mp hq with hq | hq
            · exact hacc q hq s' (by simp [hs'])
            · obtain ⟨m', hsm', hm', hmf'⟩ := hsubs s' (by simp [hs'])
              have hnotin : s ∉ srest := (List.nodup_cons.mp hnodup).1
              have hmm : m ≠ m' := by
                intro hh
                apply hnotin
                have hss : s = s' := by rw [hsm, hsm', hh]
                rw [hss]
                exact hs'
              obtain ⟨hq1, hq2⟩ := hframe1 q hq
              rw [hsm] at hq1 hq2
              rw [hsm']
              exact ⟨subtree_disjoint hm hmf hm' hmf' hmm hq1,
                     subtree_disjoint hm hmf hm' hmf' hmm hq2⟩
          obtain ⟨ihmap, ihfs, ihwf, ihdirs, ihframe⟩ :=
            ih o.fs (acc ++ o.renames) items' fs3' rs' ck'
              (fun s' hs' => hsubs s' (by simp [hs']))
              (List.nodup_cons.mp hnodup).2 hofs0 haccrest hwf' hrec
          refine ⟨?_, ?_, ihwf, ?_, ?_⟩
          · rw [List.map_append, ihmap, hmap1, hinv, List.flatMap_cons,
              List.map_append]
          · rw [ihfs, hofs, ← applyRenames_append]
          · rw [ihdirs, hdirs']
          · intro q hq
            rcases List.mem_append.mp hq with hq | hq
            · exact ⟨s, by simp, hframe1 q hq⟩
            · obtain ⟨s', hs', hu⟩ := ihframe q hq
              exact ⟨s', by simp [hs'], hu⟩

/-- The single-file branch never produces a list value. -/
theorem processFile_not_list (env : Env) (fs : FS) (filename fmt : String)
    (tags : List String) (rfFuel : Nat) (v : PyVal) (fs' : FS)
    (rs : List (String × String)) (l : List PyVal)
    (h : processFile env fs filename fmt tags rfFuel = .ok (v, fs', rs)) :
    v ≠ .list l := by
  intro hlv
  subst hlv
  rw [processFile] at h
  split at h
  · simp at h
  · split at h
    · simp at h
    · split at h
      · cases h
      · split at h
        · dsimp only at h
          split at h
          · simp at h
          · split at h
            · simp at h
            · split at h
              · simp at h
              · cases h
        · simp at h

/-- `p` reaches under its own extension by a child name. -/
theorem underSep_append (tSep nn : String) : underSep tSep (tSep ++ nn) :=
  ⟨nn.data, (strData_append _ _).symm⟩

/-! ## C8: the main walk theorem -/

/-- Order preservation of the directory walk (the amended C8): whenever a
`rename` call (with truthy tags) returns a list, that list is flat — its
entries are dictionaries — and enumerates, in order, the direct `.pdf`
children of the target in listing order followed by the depth-first
enumeration of each subdirectory in listing order, all computed on the
snapshot taken at entry; moreover the filesystem evolves exactly by the
recorded renames, which all stay under the target, and well-formedness and
the directory set are preserved. -/
theorem walk_order_spec (env : Env) (hb : BuilderGood env) :
    ∀ (fuel : Nat) (fs : FS) (target fmt : String) (ts : List String)
      (out : Outcome) (rs : List PyVal),
      WFfs fs → ts ≠ [] →
      rename env fuel fs target (some fmt) (some ts) = .ok out →
      out.val = .list rs →
      rs.map valPathOrig =
        (walkSpec env.check_subfolders fs fuel target).map some ∧
      out.fs = applyRenames fs out.renames ∧ WFfs out.fs ∧
      out.fs.dirs = fs.dirs ∧
      (∀ q ∈ out.renames,
        underSep (ensureSep target) q.1 ∧ underSep (ensureSep target) q.2) := by
  intro fuel
  induction fuel with
  | zero => intro fs target fmt ts out rs _ _ hrun _; cases hrun
  | succ fuel ih =>
    intro fs target fmt ts out rs hwf hts hrun hlist
    have htags : effectiveTags env (some fmt) (some ts) = some ts :=
      effectiveTags_truthy _ _ _ (truthyTags_of_ne hts)
    by_cases hd : isdir fs target = true
    case neg =>
      rw [Bool.not_eq_true] at hd
      rw [rename_nondir env fuel fs target (some fmt) (some ts) ts htags hd] at hrun
      cases hpf : processFile env fs target (resolveFormat env (some fmt)) ts fuel with
      | error e => rw [hpf] at hrun; cases hrun
      | ok q =>
        obtain ⟨v, fs', rsn⟩ := q
        rw [hpf] at hrun
        simp only [Except.ok.injEq] at hrun
        subst hrun
        exact absurd hlist
          (processFile_not_list env fs target _ ts fuel v fs' rsn rs hpf)
    case pos =>
      rw [rename, htags] at hrun
      dsimp only at hrun
      have hex : pathExists fs target = true := pathExists_of_isdir fs target hd
      rw [hex] at hrun
      simp only [Bool.not_true, Bool.false_eq_true, if_false] at hrun
      rw [hd] at hrun
      simp only [if_true] at hrun
      have hsep := ensureSep_data target
      by_cases hemp : ((listdir fs (ensureSep target)).filter
          (fun f => pyEndsWith (pyLower f) ".pdf")).isEmpty = true
      · rw [hemp] at hrun
        simp only [if_true] at hrun
        cases hsubs : scandirDirs fs (ensureSep target) with
        | nil => rw [hsubs] at hrun; cases hrun
        | cons s1 srest =>
          rw [hsubs] at hrun
          cases hcs : env.check_subfolders with
          | false => rw [hcs] at hrun; cases hrun
          | true =>
            rw [hcs] at hrun
            dsimp only at hrun
            cases hs1 : rename env fuel fs s1
                (some (resolveFormat env (some fmt))) (some ts) with
            | error e => rw [hs1] at hrun; cases hrun
            | ok o => rw [hs1] at hrun; cases hrun
      · rw [Bool.not_eq_true] at hemp
        rw [hemp] at hrun
        simp only [Bool.false_eq_true, if_false] at hrun
        cases hff : foldFiles
            (fun fs1 f => rename env fuel fs1 (ensureSep target ++ f)
              (some (resolveFormat env (some fmt))) (some ts)) fs
            ((listdir fs (ensureSep target)).filter
              (fun f => pyEndsWith (pyLower f) ".pdf")) with
        | error e => rw [hff] at hrun; cases hrun
        | ok q1 =>
          obtain ⟨items, fs1, rs1, ck1⟩ := q1
          rw [hff] at hrun
          dsimp only at hrun
          have hnodupN : ((listdir fs (ensureSep target)).filter
              (fun f => pyEndsWith (pyLower f) ".pdf")).Nodup :=
            (listdir_nodup hwf _).filter _
          have hprops : ∀ f ∈ (listdir fs (ensureSep target)).filter
              (fun f => pyEndsWith (pyLower f) ".pdf"),
              f ≠ "" ∧ SEP ∉ f.data ∧
              pyEndsWith (pyLower f) ".pdf" = true ∧
              ensureSep target ++ f ∈ fs.files := by
            intro f hf
            obtain ⟨hfl, hfp⟩ := List.mem_filter.mp hf
            obtain ⟨_, hne, hfree⟩ := mem_listdir hfl
            exact ⟨hne, hfree, hfp, pdf_child_in_files hwf hfl hfp⟩
          obtain ⟨ffmap, fffs, ffwf, ffdirs, ffframe⟩ :=
            foldFiles_spec env hb fuel (ensureSep target)
              (resolveFormat env (some fmt)) ts hsep hts
              ((listdir fs (ensureSep target)).filter
                (fun f => pyEndsWith (pyLower f) ".pdf"))
              fs items fs1 rs1 ck1 hnodupN hprops hwf hff
          by_cases hgate : (!(scandirDirs fs (ensureSep target)).isEmpty &&
              env.check_subfolders) = true
          · rw [hgate] at hrun
            simp only [if_true] at hrun
            cases hfsub : foldSubs
                (fun fs2 s => rename env fuel fs2 s
                  (some (resolveFormat env (some fmt))) (some ts)) fs1
                (scandirDirs fs (ensureSep target)) with
            | error e => rw [hfsub] at hrun; cases hrun
            | ok q2 =>
              obtain ⟨items2, fs3, rs2b, ck2⟩ := q2
              rw [hfsub] at hrun
              simp only [Except.ok.injEq] at hrun
              subst hrun
              have hcs : env.check_subfolders = true := by
                rw [Bool.and_eq_true] at hgate
                exact hgate.2
              obtain ⟨fsmap, fsfs, fswf, fsdirs, fsframe⟩ :=
                foldSubs_spec env fuel (resolveFormat env (some fmt)) ts
                  (ensureSep target) fs
                  (fun fs1' s o' rs' hwf1 hrun1 hlist1 =>
                    ih fs1' s (resolveFormat env (some fmt)) ts o' rs'
                      hwf1 hts hrun1 hlist1)
                  (scandirDirs fs (ensureSep target)) fs1 rs1
                  items2 fs3 rs2b ck2
                  (fun s hs => by
                    obtain ⟨m, hm1, hm2, hm3, _⟩ := mem_scandirDirs_decomp hs
                    exact ⟨m, hm1, hm2, hm3⟩)
                  (scandirDirs_nodup hwf _) fffs
                  (fun q hq s hs => by
                    obtain ⟨m, hm1, hm2, hm3, _⟩ := mem_scandirDirs_decomp hs
                    obtain ⟨⟨n1, hn1, _, hn1f⟩, ⟨n2, hn2, _, hn2f⟩⟩ := ffframe q hq
                    rw [hm1]
                    exact ⟨child_not_under_subtree hn1 hn1f hm2 hm3,
                           child_not_under_subtree hn2 hn2f hm2 hm3⟩)
                  ffwf hfsub
              have hrs : rs = items ++ items2 := by
                have : PyVal.list (items ++ items2) = PyVal.list rs := hlist
                injection this with h'
                exact h'.symm
              subst hrs
              refine ⟨?_, ?_, fswf, ?_, ?_⟩
              · rw [walkSpec, if_pos hcs, List.map_append, List.map_append,
                  ffmap, fsmap, List.map_map]
                rfl
              · show fs3 = applyRenames fs (rs1 ++ rs2b)
                rw [applyRenames_append, ← fffs, fsfs]
              · show fs3.dirs = fs.dirs
                rw [fsdirs, ffdirs]
              · intro q hq
                rcases List.mem_append.mp hq with hq | hq
                · obtain ⟨⟨n1, hn1, _, _⟩, ⟨n2, hn2, _, _⟩⟩ := ffframe q hq
                  exact ⟨hn1 ▸ underSep_append _ _, hn2 ▸ underSep_append _ _⟩
                · obtain ⟨s, hs, hu1, hu2⟩ := fsframe q hq
                  obtain ⟨m, hm1, _, _, _⟩ := mem_scandirDirs_decomp hs
                  have hext : ∃ u, (ensureSep target).data ++ u =
                      (ensureSep s).data := by
                    rw [hm1]; exact ensureSep_extends _ _
                  exact ⟨underSep_mono hext hu1, underSep_mono hext hu2⟩
          · rw [Bool.not_eq_true] at hgate
            rw [hgate] at hrun
            simp only [Bool.false_eq_true, if_false] at hrun
            simp only [Except.ok.injEq] at hrun
            subst hrun
            have hrs : rs = items := by
              have : PyVal.list items = PyVal.list rs := hlist
              injection this with h'
              exact h'.symm
            subst hrs
            have htail : (if env.check_subfolders then
                (scandirDirs fs (ensureSep target)).flatMap
                  (walkSpec env.check_subfolders fs fuel) else []) = [] := by
              rcases Bool.and_eq_false_iff.mp hgate with hg | hg
              · have hse : (scandirDirs fs (ensureSep target)).isEmpty = true := by
                  simpa using hg
                rw [List.isEmpty_iff.mp hse]
                simp
              · rw [hg]
                simp
            refine ⟨?_, fffs, ffwf, ffdirs, ?_⟩
            · rw [walkSpec, htail, List.append_nil, ffmap, List.map_map]
              rfl
            · intro q hq
              obtain ⟨⟨n1, hn1, _, _⟩, ⟨n2, hn2, _, _⟩⟩ := ffframe q hq
              exact ⟨hn1 ▸ underSep_append _ _, hn2 ▸ underSep_append _ _⟩

/-! ## C8: counterexample and witness -/

/-- Environment with subfolder recursion enabled and a resolver that finds
no identifier (so no renames occur). -/
def envW : Env :=
  { envA with check_subfolders := true, pdf2bib := fun _ => .ok emptyBib }

/-- A directory with one direct pdf file and one pdf-free subfolder. -/
def fs8 : FS := ⟨["r/a.pdf"], ["r", "r/s"]⟩

/-- C8 counterexample: the original claim fails on snapshots containing a
pdf-free subfolder.  The directory `r` of `fs8` exists, has a direct `.pdf`
child, and recursion is enabled; yet the walk does not return any list at
all — recursing into the pdf-free subfolder `r/s` raises the
`UnboundLocalError` of the unassigned `files_processed` accumulator, which
aborts the whole walk. -/
theorem walk_order_claim_counterexample :
    isdir fs8 "r" = true ∧
    pathExists fs8 "r/a.pdf" = true ∧
    envW.check_subfolders = true ∧
    ¬ ∃ out : Outcome, rename envW 6 fs8 "r" (some "fmt") (some ["t"]) = .ok out := by
  refine ⟨rfl, rfl, rfl, ?_⟩
  rintro ⟨out, h⟩
  have h0 : rename envW 6 fs8 "r" (some "fmt") (some ["t"]) =
      .error (.unboundLocal "files_processed") := rfl
  rw [h0] at h
  cases h

/-- A four-pdf, three-directory snapshot for the order witness. -/
def fsW : FS :=
  ⟨["r/b.pdf", "r/a.pdf", "r/s1/c.pdf", "r/s2/d.pdf"], ["r", "r/s1", "r/s2"]⟩

/-- Expected result list for the order witness: directory-listing order of
the direct pdfs of `r`, then the two subtrees depth-first. -/
def rsW : List PyVal :=
  [.dict (mkResult emptyBib "r/b.pdf" Option.none),
   .dict (mkResult emptyBib "r/a.pdf" Option.none),
   .dict (mkResult emptyBib "r/s1/c.pdf" Option.none),
   .dict (mkResult emptyBib "r/s2/d.pdf" Option.none)]

/-- Outcome of the witness walk. -/
def outW : Outcome := ⟨.list rsW, fsW, [], 0⟩

/-- The constant builder of `envW` is filesystem-safe. -/
theorem envW_builder_good : BuilderGood envW := by
  intro m f t
  refine ⟨?_, ?_⟩
  · show SEP ∉ ("Smith2020" : String).data
    decide
  · show ("Smith2020" : String) ≠ ""
    decide

/-- Witness for the amended C8 at a concrete input: the walk of `r` in
`fsW` returns a flat list of four dictionaries in listing order —
`r/b.pdf`, `r/a.pdf`, then the subtrees `r/s1`, `r/s2` depth-first. -/
theorem walk_order_spec_witness :
    rsW.map valPathOrig =
      (walkSpec envW.check_subfolders fsW 6 "r").map some ∧
    outW.fs = applyRenames fsW outW.renames ∧ WFfs outW.fs ∧
    outW.fs.dirs = fsW.dirs ∧
    (∀ q ∈ outW.renames,
      underSep (ensureSep "r") q.1 ∧ underSep (ensureSep "r") q.2) :=
  walk_order_spec envW envW_builder_good 6 fsW "r" "fmt"
    ["t"] outW rsW ⟨by decide, by decide, by decide, by decide⟩ (by decide)
    rfl rfl

end PdfRenamer
